import Mathlib

/-!
Shallow embedding of `binary_set.hxx` (classes `binary_set` and `bs_searcher`)
and proofs of the specification claims about them.

The backing store of a `binary_set` is a `std::vector<unsigned char>`; it is
modelled as a `List Nat` whose entries are bytes (`< 256`).  C++ exceptions
(`std::invalid_argument`, `std::domain_error`, `std::out_of_range`) are
modelled by the inductive `bs_error`; mutating member functions return a pair
of the (possibly updated) object and an `Except bs_error` result, so that a
thrown exception leaves the object in its pre-call state, exactly as in the
source where every validation precedes every mutation.
-/

instance exceptDecEq {ε α : Type} [DecidableEq ε] [DecidableEq α] :
    DecidableEq (Except ε α) := fun x y =>
  match x, y with
  | .ok a, .ok b =>
      if h : a = b then .isTrue (by rw [h]) else .isFalse (fun hc => by cases hc; exact h rfl)
  | .error a, .error b =>
      if h : a = b then .isTrue (by rw [h]) else .isFalse (fun hc => by cases hc; exact h rfl)
  | .ok _, .error _ => .isFalse (fun hc => by cases hc)
  | .error _, .ok _ => .isFalse (fun hc => by cases hc)

/-- The three exception types thrown by `binary_set.hxx`, with their
`what()` messages. -/
inductive bs_error : Type where
  | invalid_argument (msg : String)
  | domain_error (msg : String)
  | out_of_range (msg : String)
deriving DecidableEq, Repr

/-- `std::invalid_argument` thrown by the `binary_set(capacity, fill)`
constructor when `capacity == 0` (line 64). -/
def errInvalidCapacity : bs_error :=
  .invalid_argument "Cannot explicitly create a binary_set with capacity 0."

/-- `std::invalid_argument` thrown by `validate_same_capacity` (line 541). -/
def errCapacityMismatch : bs_error :=
  .invalid_argument "The two binary_set do not have the same capacity."

/-- `std::domain_error` thrown by `validate_element` and `sparse` when the
set has capacity 0 (lines 208, 530). -/
def errDomainEmpty : bs_error :=
  .domain_error "This binary set has a capacity of 0."

/-- `std::out_of_range` thrown by `validate_element` when
`element >= capacity_` (line 533). -/
def errOutOfRange : bs_error :=
  .out_of_range "Specified element is outside of the possible range for this binary_set."

/-- `std::invalid_argument` thrown by `bs_searcher::validate_capacity`
(line 770). -/
def errSearcherCapacity : bs_error :=
  .invalid_argument "The binary_set has an unexpected capacity."

/-- The `binary_set` class (line 43): a fixed capacity, a cached element
count `size_`, and the byte-packed backing store `set_`. -/
structure binary_set : Type where
  capacity_ : Nat
  size_ : Nat
  set_ : List Nat
deriving DecidableEq, Repr

/-- The default-constructed `binary_set` (line 51): capacity 0, empty store. -/
def bsDefault : binary_set := ⟨0, 0, []⟩

/-- The raw bit test `(set_[element / 8] & (1u << (element % 8))) != 0`
performed by `contains` (line 149), on a raw byte list.  Indices beyond the
store read as 0 (in C++ such an access cannot happen on a validated set). -/
def getBitL (l : List Nat) (i : Nat) : Bool :=
  (l.getD (i / 8) 0) &&& (1 <<< (i % 8)) != 0

/-- One pass of Brian Kernighan's bit-counting loop from
`recalculate_size` (lines 550-554): `while (b) { b &= b - 1; ++size_; }`.
The first argument is fuel; `popcountByte` supplies enough of it, since the
loop runs at most `b` times. -/
def popcountLoop : Nat → Nat → Nat
  | 0, _ => 0
  | _ + 1, 0 => 0
  | fuel + 1, b + 1 => 1 + popcountLoop fuel ((b + 1) &&& b)

/-- Number of set bits of one byte, as computed by the Kernighan loop in
`recalculate_size` (lines 548-555). -/
def popcountByte (b : Nat) : Nat := popcountLoop b b

/-- `recalculate_size` (lines 546-556): total number of set bits of the
backing store. -/
def popcountBytes : List Nat → Nat
  | [] => 0
  | b :: t => popcountByte b + popcountBytes t

/-- The final-byte mask `(1u << (capacity % 8)) - 1` used by the filling
constructor, `fill` and `operator!` (lines 74, 131, 370). -/
def maskByte (c : Nat) : Nat := (1 <<< (c % 8)) - 1

/-- `set_[set_.size() - 1] &= maskByte c`: clear the pad bits of the last
byte of the store. -/
def applyLastMask (l : List Nat) (c : Nat) : List Nat :=
  l.set (l.length - 1) ((l.getD (l.length - 1) 0) &&& maskByte c)

/-- The explicit constructor `binary_set(capacity, fill)` (lines 63-76). -/
def binary_set.create (capacity : Nat) (fill : Bool) : Except bs_error binary_set :=
  if capacity = 0 then .error errInvalidCapacity
  else
    let bytes := List.replicate ((capacity + 7) / 8) (if fill then 255 else 0)
    let bytes := if fill && capacity % 8 != 0 then applyLastMask bytes capacity else bytes
    .ok { capacity_ := capacity, size_ := if fill then capacity else 0, set_ := bytes }

/-- `validate_element` (lines 528-537): capacity-0 check, then range check. -/
def binary_set.validate_element (s : binary_set) (element : Nat) : Option bs_error :=
  if s.capacity_ = 0 then some errDomainEmpty
  else if element ≥ s.capacity_ then some errOutOfRange
  else none

/-- `binary_set::add` (lines 88-95): validate, test the bit, set it and
increment `size_` if it was clear. -/
def binary_set.add (s : binary_set) (element : Nat) : binary_set × Except bs_error Bool :=
  match s.validate_element element with
  | some e => (s, .error e)
  | none =>
    if getBitL s.set_ element then (s, .ok false)
    else ({ s with
            set_ := s.set_.set (element / 8) ((s.set_.getD (element / 8) 0) ||| (1 <<< (element % 8))),
            size_ := s.size_ + 1 }, .ok true)

/-- `binary_set::remove` (lines 107-114).  The byte operation
`set_[element / 8] &= ~(1u << (element % 8))` is expressed on bytes as
`&&& ((1 <<< (element % 8)) ^^^ 255)`, the 8-bit complement of the mask. -/
def binary_set.remove (s : binary_set) (element : Nat) : binary_set × Except bs_error Bool :=
  match s.validate_element element with
  | some e => (s, .error e)
  | none =>
    if !getBitL s.set_ element then (s, .ok false)
    else ({ s with
            set_ := s.set_.set (element / 8) ((s.set_.getD (element / 8) 0) &&& ((1 <<< (element % 8)) ^^^ 255)),
            size_ := s.size_ - 1 }, .ok true)

/-- `binary_set::clear` (lines 119-122): zero every byte, `size_ = 0`. -/
def binary_set.clear (s : binary_set) : binary_set :=
  { s with set_ := List.replicate s.set_.length 0, size_ := 0 }

/-- `binary_set::fill` (lines 127-134): set every byte to `0xFF`, clear the
pad bits of the last byte, `size_ = capacity_`. -/
def binary_set.fill (s : binary_set) : binary_set :=
  let bytes := List.replicate s.set_.length 255
  let bytes := if s.capacity_ % 8 != 0 && s.capacity_ != 0 then applyLastMask bytes s.capacity_ else bytes
  { s with set_ := bytes, size_ := s.capacity_ }

/-- `binary_set::contains(unsigned int)` (lines 147-150). -/
def binary_set.contains (s : binary_set) (element : Nat) : Except bs_error Bool :=
  match s.validate_element element with
  | some e => .error e
  | none => .ok (getBitL s.set_ element)

/-- `binary_set::empty` (lines 194-196): all backing bytes zero. -/
def binary_set.empty (s : binary_set) : Bool :=
  s.set_.all (fun b => b == 0)

/-- `binary_set::sparse` (lines 207-210): ascending list of the present
elements (collected by the forward iterator). -/
def binary_set.sparse (s : binary_set) : Except bs_error (List Nat) :=
  if s.capacity_ = 0 then .error errDomainEmpty
  else .ok ((List.range s.capacity_).filter (fun i => getBitL s.set_ i))

/-- The bytewise loop `for i < set_.size(): f set_[i] other.set_[i]` shared
by `operator&`, `operator|`, `operator-` and their in-place variants. -/
def bytesMap2 (f : Nat → Nat → Nat) (a b : List Nat) : List Nat :=
  (List.range a.length).map (fun i => f (a.getD i 0) (b.getD i 0))

/-- `binary_set::operator&` (lines 246-255): validate capacities, AND the
stores bytewise, recalculate the size. -/
def binary_set.opAnd (s other : binary_set) : Except bs_error binary_set :=
  if s.capacity_ ≠ other.capacity_ then .error errCapacityMismatch
  else
    let bytes := bytesMap2 (fun x y => x &&& y) s.set_ other.set_
    .ok { capacity_ := s.capacity_, size_ := popcountBytes bytes, set_ := bytes }

/-- `binary_set::operator&=` (lines 265-273): same bytes and size as
`operator&`, updating the left operand in place. -/
def binary_set.andAssign (s other : binary_set) : binary_set × Except bs_error Unit :=
  if s.capacity_ ≠ other.capacity_ then (s, .error errCapacityMismatch)
  else
    let bytes := bytesMap2 (fun x y => x &&& y) s.set_ other.set_
    ({ s with set_ := bytes, size_ := popcountBytes bytes }, .ok ())

/-- `binary_set::operator|` (lines 284-293). -/
def binary_set.opOr (s other : binary_set) : Except bs_error binary_set :=
  if s.capacity_ ≠ other.capacity_ then .error errCapacityMismatch
  else
    let bytes := bytesMap2 (fun x y => x ||| y) s.set_ other.set_
    .ok { capacity_ := s.capacity_, size_ := popcountBytes bytes, set_ := bytes }

/-- `binary_set::operator|=` (lines 303-311). -/
def binary_set.orAssign (s other : binary_set) : binary_set × Except bs_error Unit :=
  if s.capacity_ ≠ other.capacity_ then (s, .error errCapacityMismatch)
  else
    let bytes := bytesMap2 (fun x y => x ||| y) s.set_ other.set_
    ({ s with set_ := bytes, size_ := popcountBytes bytes }, .ok ())

/-- `binary_set::operator-` (lines 323-332).  The byte operation
`set_[i] &= ~other.set_[i]` is `&&& (other byte ^^^ 255)` on bytes. -/
def binary_set.opSub (s other : binary_set) : Except bs_error binary_set :=
  if s.capacity_ ≠ other.capacity_ then .error errCapacityMismatch
  else
    let bytes := bytesMap2 (fun x y => x &&& (y ^^^ 255)) s.set_ other.set_
    .ok { capacity_ := s.capacity_, size_ := popcountBytes bytes, set_ := bytes }

/-- `binary_set::operator-=` (lines 342-350). -/
def binary_set.subAssign (s other : binary_set) : binary_set × Except bs_error Unit :=
  if s.capacity_ ≠ other.capacity_ then (s, .error errCapacityMismatch)
  else
    let bytes := bytesMap2 (fun x y => x &&& (y ^^^ 255)) s.set_ other.set_
    ({ s with set_ := bytes, size_ := popcountBytes bytes }, .ok ())

/-- `binary_set::operator!` (lines 361-375): it first constructs
`binary_set result{capacity_}` — which throws `errInvalidCapacity` when the
capacity is 0 — then writes `~set_[i]` (bytewise: `^^^ 255`) into the result,
masks the pad bits of the last byte, and recalculates the size. -/
def binary_set.opNot (s : binary_set) : Except bs_error binary_set :=
  if s.capacity_ = 0 then .error errInvalidCapacity
  else
    let bytes := s.set_.map (fun b => b ^^^ 255)
    let bytes := if s.capacity_ % 8 != 0 && s.capacity_ != 0 then applyLastMask bytes s.capacity_ else bytes
    .ok { capacity_ := s.capacity_, size_ := popcountBytes bytes, set_ := bytes }

/-- `binary_set::operator==` (lines 387-390): validate capacities, compare
the backing stores byte for byte. -/
def binary_set.opEq (s other : binary_set) : Except bs_error Bool :=
  if s.capacity_ ≠ other.capacity_ then .error errCapacityMismatch
  else .ok (s.set_ == other.set_)

/-- Well-formedness of a `binary_set` value: exactly the states a C++
`binary_set` object can be in.  The store has `ceil(capacity/8)` bytes, each
a byte, the pad bits beyond `capacity_` are zero, and the cached `size_` is
the number of present elements. -/
def binary_set.WF (s : binary_set) : Prop :=
  s.set_.length = (s.capacity_ + 7) / 8
  ∧ (∀ b ∈ s.set_, b < 256)
  ∧ (∀ i < 8 * s.set_.length, s.capacity_ ≤ i → getBitL s.set_ i = false)
  ∧ s.size_ = (List.range s.capacity_).countP (fun i => getBitL s.set_ i)

instance (s : binary_set) : Decidable s.WF := by
  unfold binary_set.WF; infer_instance

/-- The `binary_set` values producible by the public interface: default
construction, the explicit constructor, and closure under every mutating or
copying operation (exceptions leave operands unchanged, so the error cases
of `add`/`remove`/the assign operators stay inside the relation via their
first component). -/
inductive binary_set.Reachable : binary_set → Prop where
  | ofDefault : binary_set.Reachable bsDefault
  | ofCreate (c : Nat) (f : Bool) (s : binary_set) :
      binary_set.create c f = .ok s → binary_set.Reachable s
  | ofAdd (s : binary_set) (e : Nat) :
      binary_set.Reachable s → binary_set.Reachable (s.add e).1
  | ofRemove (s : binary_set) (e : Nat) :
      binary_set.Reachable s → binary_set.Reachable (s.remove e).1
  | ofClear (s : binary_set) :
      binary_set.Reachable s → binary_set.Reachable s.clear
  | ofFill (s : binary_set) :
      binary_set.Reachable s → binary_set.Reachable s.fill
  | ofAnd (a b r : binary_set) :
      binary_set.Reachable a → binary_set.Reachable b →
      binary_set.opAnd a b = .ok r → binary_set.Reachable r
  | ofAndAssign (a b : binary_set) :
      binary_set.Reachable a → binary_set.Reachable b →
      binary_set.Reachable (a.andAssign b).1
  | ofOr (a b r : binary_set) :
      binary_set.Reachable a → binary_set.Reachable b →
      binary_set.opOr a b = .ok r → binary_set.Reachable r
  | ofOrAssign (a b : binary_set) :
      binary_set.Reachable a → binary_set.Reachable b →
      binary_set.Reachable (a.orAssign b).1
  | ofSub (a b r : binary_set) :
      binary_set.Reachable a → binary_set.Reachable b →
      binary_set.opSub a b = .ok r → binary_set.Reachable r
  | ofSubAssign (a b : binary_set) :
      binary_set.Reachable a → binary_set.Reachable b →
      binary_set.Reachable (a.subAssign b).1
  | ofNot (s r : binary_set) :
      binary_set.Reachable s → binary_set.opNot s = .ok r → binary_set.Reachable r

/-- `bs_searcher::treenode` (lines 585-591): a value list and two owned,
possibly-null children.  The `nil` constructor stands for a null
`std::unique_ptr<treenode>`; an allocated node is `mk`. -/
inductive treenode : Type where
  | nil : treenode
  | mk (values : List Nat) (left : treenode) (right : treenode)
deriving DecidableEq, Repr

/-- Value list of a node (empty for the null pointer, which is never
dereferenced in the source). -/
def treenode.values : treenode → List Nat
  | .nil => []
  | .mk vs _ _ => vs

/-- Left ("absent") child. -/
def treenode.left : treenode → treenode
  | .nil => .nil
  | .mk _ l _ => l

/-- Right ("present") child. -/
def treenode.right : treenode → treenode
  | .nil => .nil
  | .mk _ _ r => r

/-- Whether the pointer is null. -/
def treenode.isNil : treenode → Bool
  | .nil => true
  | .mk _ _ _ => false

/-- A freshly allocated node: `std::make_unique<treenode>()`. -/
def treenode.new : treenode := .mk [] .nil .nil

/-- The `bs_searcher` class (line 583): the owned root node and the fixed
capacity. -/
structure bs_searcher : Type where
  root_ : treenode
  capacity_ : Nat
deriving DecidableEq, Repr

/-- The `bs_searcher(capacity)` constructor (line 599). -/
def bs_searcher.init (capacity : Nat) : bs_searcher :=
  ⟨treenode.new, capacity⟩

/-- The bit pattern of a `binary_set` as read by the searcher: the loop
`for i < capacity_: bs[i]` (`bs[i]` is `contains(i)`, whose validation
cannot fire here because the searcher has verified the capacities match and
only queries `i < capacity`).  `true` means present, steering to the right
child. -/
def bitsOf (bs : binary_set) : List Bool :=
  (List.range bs.capacity_).map (fun i => getBitL bs.set_ i)

/-- The descent loop of `bs_searcher::add` (lines 620-632): follow the bit
path, allocating missing children (`treenode.nil.left = .nil`,
`treenode.nil.values = []`, so recursing through a null pointer builds
exactly the freshly allocated node), and append the value to the terminal
node's list (line 635). -/
def addPath : treenode → List Bool → Nat → treenode
  | t, [], v => .mk (t.values ++ [v]) t.left t.right
  | t, true :: p, v => .mk t.values t.left (addPath t.right p v)
  | t, false :: p, v => .mk t.values (addPath t.left p v) t.right

/-- `bs_searcher::add` (lines 612-636): validate the capacity, then insert
along the bit path. -/
def bs_searcher.add (s : bs_searcher) (value : Nat) (bs : binary_set) :
    bs_searcher × Except bs_error Unit :=
  if s.capacity_ ≠ bs.capacity_ then (s, .error errSearcherCapacity)
  else ({ s with root_ := addPath s.root_ (bitsOf bs) value }, .ok ())

/-- The value-list removal of `bs_searcher::remove` (lines 672-679):
`it = find(values, value); if (it != end()-1) *it = back(); pop_back()` —
overwrite the first occurrence with the last entry, then drop the last.
Only called when `value ∈ l`. -/
def swap_pop (l : List Nat) (v : Nat) : List Nat :=
  (l.set (l.indexOf v) (l.getLastD 0)).dropLast

/-- The descent + pruning of `bs_searcher::remove` (lines 659-698), as a
recursion that returns `none` when nothing was removed (missing child on
the path, or value absent at the terminal node: the tree is untouched) and
`some c` when the value was removed, where `c` is what the parent's child
link must become — `.nil` exactly when the C++ loop detaches the node
(empty value list and no children after the removal). -/
def removeAux : treenode → List Bool → Nat → Option treenode
  | .nil, _, _ => none
  | .mk vs l r, [], v =>
      if v ∈ vs then
        let vs' := swap_pop vs v
        some (if vs'.isEmpty && l.isNil && r.isNil then .nil else .mk vs' l r)
      else none
  | .mk vs l r, true :: p, v =>
      match removeAux r p v with
      | none => none
      | some c =>
        some (if c.isNil && vs.isEmpty && l.isNil then .nil else .mk vs l c)
  | .mk vs l r, false :: p, v =>
      match removeAux l p v with
      | none => none
      | some c =>
        some (if c.isNil && vs.isEmpty && r.isNil then .nil else .mk vs c r)

/-- `bs_searcher::remove` (lines 651-701).  The pruning loop stops at the
root (`i > 0`), so when the whole path dies the root remains as an empty
node. -/
def bs_searcher.remove (s : bs_searcher) (value : Nat) (bs : binary_set) :
    bs_searcher × Except bs_error Bool :=
  if s.capacity_ ≠ bs.capacity_ then (s, .error errSearcherCapacity)
  else
    match removeAux s.root_ (bitsOf bs) value with
    | none => (s, .ok false)
    | some c => ({ s with root_ := if c.isNil then treenode.new else c }, .ok true)

/-- One level of the traversal of `bs_searcher::find_subsets`
(lines 732-742): a present query bit keeps both children of every frontier
node (left pushed first), an absent bit keeps only the left children;
null children are skipped. -/
def stepLevel (b : Bool) (level : List treenode) : List treenode :=
  level.flatMap (fun n =>
    if b then
      (if n.left.isNil then [] else [n.left]) ++ (if n.right.isNil then [] else [n.right])
    else
      (if n.left.isNil then [] else [n.left]))

/-- The level-by-level loop of `find_subsets` (lines 729-745).  The source
breaks out early when the frontier empties; `stepLevel` of `[]` is `[]`,
so running the remaining levels returns the same (empty) frontier. -/
def runLevels : List Bool → List treenode → List treenode
  | [], level => level
  | b :: q, level => runLevels q (stepLevel b level)

/-- `bs_searcher::find_subsets` (lines 716-762): validate the capacity,
run the traversal from the root, concatenate the value lists of the final
frontier. -/
def bs_searcher.find_subsets (s : bs_searcher) (bs : binary_set) :
    Except bs_error (List Nat) :=
  if s.capacity_ ≠ bs.capacity_ then .error errSearcherCapacity
  else .ok ((runLevels (bitsOf bs) [s.root_]).flatMap treenode.values)

/-- `(path, value)` pairs stored in a subtree, the path being the branch
word from this node (`false` = left/absent, `true` = right/present).
Abstraction used to state and prove the searcher claims. -/
def treenode.entries : treenode → List (List Bool × Nat)
  | .nil => []
  | .mk vs l r =>
      vs.map (fun v => (([] : List Bool), v))
        ++ l.entries.map (fun e => (false :: e.1, e.2))
        ++ r.entries.map (fun e => (true :: e.1, e.2))

/-- Pointwise inclusion of equal-length bit words: `bitsLe p q` holds when
every `true` of `p` is a `true` of `q` (and the lengths agree). -/
def bitsLe : List Bool → List Bool → Bool
  | [], [] => true
  | a :: p, b :: q => (!a || b) && bitsLe p q
  | _, _ => false

/-- The plain descent `node = bs[i] ? node->right : node->left` of
`bs_searcher::remove` (lines 662-666); ends on `.nil` when the path does
not resolve. -/
def descend : treenode → List Bool → treenode
  | t, [] => t
  | t, b :: p => descend (if b then t.right else t.left) p

/-- Operations applied to a `bs_searcher` (exceptions leave the state
unchanged, as in the source). -/
inductive bs_op : Type where
  | addOp (value : Nat) (bs : binary_set)
  | removeOp (value : Nat) (bs : binary_set)

/-- Apply one operation to the searcher. -/
def runOp (s : bs_searcher) (op : bs_op) : bs_searcher :=
  match op with
  | .addOp v bs => (s.add v bs).1
  | .removeOp v bs => (s.remove v bs).1

/-- Apply a sequence of operations. -/
def runOps (s : bs_searcher) (ops : List bs_op) : bs_searcher :=
  ops.foldl runOp s

/-- Reference model of the searcher's contents: the list of
`(bit pattern, value)` pairs currently stored.  `addOp` appends its pair,
`removeOp` erases the first occurrence of its pair (one occurrence of the
multiset), operations with the wrong capacity change nothing. -/
def modelOp (c : Nat) (M : List (List Bool × Nat)) (op : bs_op) : List (List Bool × Nat) :=
  match op with
  | .addOp v bs => if bs.capacity_ = c then M ++ [(bitsOf bs, v)] else M
  | .removeOp v bs => if bs.capacity_ = c then M.erase (bitsOf bs, v) else M

/-- Model contents after a sequence of operations on a fresh index. -/
def modelOf (c : Nat) (ops : List bs_op) : List (List Bool × Nat) :=
  ops.foldl (modelOp c) []

/-- A subtree is "all alive" when every node in it (the subtree's root
included) has a non-empty value list or at least one child.  The pruning
invariant of the index (§4.2) is that both subtrees of the index's root
are all alive — the root itself is exempt, being the only node allowed to
be empty and childless (the empty index). -/
def treenode.allAlive : treenode → Bool
  | .nil => true
  | .mk vs l r =>
      (!(vs.isEmpty && l.isNil && r.isNil)) && l.allAlive && r.allAlive

example : bsDefault.WF := by decide
example : binary_set.create 13 true = .ok ⟨13, 13, [255, 31]⟩ := by decide
example : (⟨13, 13, [255, 31]⟩ : binary_set).WF := by decide
example : popcountByte 255 = 8 := by decide
example : (bsDefault.add 3).2 = .error errDomainEmpty := by decide

example :
    (runOps (bs_searcher.init 8)
      [.addOp 101 ⟨8, 2, [10]⟩, .addOp 102 ⟨8, 1, [2]⟩, .addOp 103 ⟨8, 3, [42]⟩]).find_subsets
      ⟨8, 4, [90]⟩ = .ok [102, 101] := by decide

example :
    ((runOps (bs_searcher.init 8)
      [.addOp 101 ⟨8, 2, [10]⟩, .addOp 102 ⟨8, 1, [2]⟩]).remove 101 ⟨8, 2, [10]⟩).2 =
      .ok true := by decide

/-! ### Byte-level lemmas -/

lemma getBitL_eq_testBit (l : List Nat) (i : Nat) :
    getBitL l i = (l.getD (i / 8) 0).testBit (i % 8) := by
  unfold getBitL
  rw [Nat.one_shiftLeft, Nat.and_two_pow]
  cases h : (l.getD (i / 8) 0).testBit (i % 8)
  · simp [h]
  · simp [h, Nat.pos_iff_ne_zero.mp (Nat.two_pow_pos (i % 8))]

lemma getBitL_of_len_le (l : List Nat) (i : Nat) (h : 8 * l.length ≤ i) :
    getBitL l i = false := by
  have hlen : l.length ≤ i / 8 := (Nat.le_div_iff_mul_le (by omega)).mpr (by omega)
  unfold getBitL
  rw [List.getD_eq_getElem?_getD, List.getElem?_eq_none hlen]
  simp

set_option maxRecDepth 8000 in
lemma popcountByte_eq_countP :
    ∀ b < 256, popcountByte b = (List.range 8).countP (fun i => Nat.testBit b i) := by
  decide

lemma getBitL_cons_add8 (b : Nat) (t : List Nat) (j : Nat) :
    getBitL (b :: t) (8 + j) = getBitL t j := by
  rw [getBitL_eq_testBit, getBitL_eq_testBit]
  rw [Nat.add_comm 8 j, Nat.add_div_right _ (by omega), Nat.add_mod_right]
  rw [List.getD_cons_succ]

lemma popcountBytes_eq_countP (l : List Nat) (hb : ∀ b ∈ l, b < 256) :
    popcountBytes l = (List.range (8 * l.length)).countP (fun i => getBitL l i) := by
  induction l with
  | nil => simp [popcountBytes]
  | cons b t ih =>
    have hb0 : b < 256 := hb b (by simp)
    have hbt : ∀ x ∈ t, x < 256 := fun x hx => hb x (by simp [hx])
    have h8 : 8 * (b :: t).length = 8 + 8 * t.length := by
      simp [List.length_cons]; omega
    rw [popcountBytes, ih hbt, h8, List.range_add, List.countP_append, List.countP_map]
    congr 1
    · rw [popcountByte_eq_countP b hb0]
      apply List.countP_congr
      intro x hx
      have hx8 : x < 8 := List.mem_range.mp hx
      rw [getBitL_eq_testBit]
      rw [Nat.div_eq_of_lt hx8, Nat.mod_eq_of_lt hx8]
      simp
    · apply List.countP_congr
      intro j _
      show (getBitL t j = true) ↔ (getBitL (b :: t) (8 + j) = true)
      rw [getBitL_cons_add8]

lemma countP_range_restrict (P : Nat → Bool) (c m : Nat) (hcm : c ≤ m)
    (hpad : ∀ i, c ≤ i → i < m → P i = false) :
    (List.range m).countP P = (List.range c).countP P := by
  have hm : m = c + (m - c) := by omega
  rw [hm, List.range_add, List.countP_append]
  have hz : ((List.range (m - c)).map (c + ·)).countP P = 0 := by
    rw [List.countP_eq_zero]
    intro a ha
    obtain ⟨j, hj, rfl⟩ := List.mem_map.mp ha
    have := List.mem_range.mp hj
    simp [hpad (c + j) (by omega) (by omega)]
  omega

lemma popcountBytes_eq_size (l : List Nat) (c : Nat) (hlen : c ≤ 8 * l.length)
    (hb : ∀ b ∈ l, b < 256)
    (hpad : ∀ i < 8 * l.length, c ≤ i → getBitL l i = false) :
    popcountBytes l = (List.range c).countP (fun i => getBitL l i) := by
  rw [popcountBytes_eq_countP l hb]
  exact countP_range_restrict _ c _ hlen (fun i h1 h2 => hpad i h2 h1)

lemma getD_set_self (l : List Nat) (j x : Nat) (hj : j < l.length) :
    (l.set j x).getD j 0 = x := by
  rw [List.getD_eq_getElem?_getD, List.getElem?_set_self hj]
  rfl

lemma getD_set_ne (l : List Nat) (i j x : Nat) (h : i ≠ j) :
    (l.set i x).getD j 0 = l.getD j 0 := by
  rw [List.getD_eq_getElem?_getD, List.getElem?_set_ne h, ← List.getD_eq_getElem?_getD]

lemma testBit_255 (m : Nat) (hm : m < 8) : Nat.testBit 255 m = true := by
  rw [show (255 : Nat) = 2 ^ 8 - 1 from rfl, Nat.testBit_two_pow_sub_one]
  simpa using hm

lemma getBitL_or_update (l : List Nat) (e i : Nat) (he : e / 8 < l.length) :
    getBitL (l.set (e / 8) ((l.getD (e / 8) 0) ||| (1 <<< (e % 8)))) i =
      (getBitL l i || decide (i = e)) := by
  by_cases hbyte : i / 8 = e / 8
  · rw [getBitL_eq_testBit, getBitL_eq_testBit, hbyte, getD_set_self _ _ _ he]
    rw [Nat.one_shiftLeft, Nat.testBit_or, Nat.testBit_two_pow]
    have hiff : (e % 8 = i % 8) ↔ i = e := by omega
    simp [hiff]
  · rw [getBitL_eq_testBit, getBitL_eq_testBit,
      getD_set_ne _ _ _ _ (fun hh => hbyte hh.symm)]
    have : ¬(i = e) := fun hh => hbyte (by rw [hh])
    simp [this]

lemma getBitL_and_update (l : List Nat) (e i : Nat) (he : e / 8 < l.length) :
    getBitL (l.set (e / 8) ((l.getD (e / 8) 0) &&& ((1 <<< (e % 8)) ^^^ 255))) i =
      (getBitL l i && !decide (i = e)) := by
  by_cases hbyte : i / 8 = e / 8
  · rw [getBitL_eq_testBit, getBitL_eq_testBit, hbyte, getD_set_self _ _ _ he]
    rw [Nat.one_shiftLeft, Nat.testBit_and, Nat.testBit_xor, Nat.testBit_two_pow,
      testBit_255 _ (Nat.mod_lt _ (by omega))]
    have hiff : (e % 8 = i % 8) ↔ i = e := by omega
    simp [hiff, Bool.xor_true]
  · rw [getBitL_eq_testBit, getBitL_eq_testBit,
      getD_set_ne _ _ _ _ (fun hh => hbyte hh.symm)]
    have : ¬(i = e) := fun hh => hbyte (by rw [hh])
    simp [this]

lemma countP_range_set_true (c e : Nat) (P Q : Nat → Bool) (he : e < c)
    (hsame : ∀ i < c, i ≠ e → Q i = P i) (hPe : P e = false) (hQe : Q e = true) :
    (List.range c).countP Q = (List.range c).countP P + 1 := by
  have hc : c = (e + 1) + (c - e - 1) := by omega
  rw [hc, List.range_add, List.countP_append, List.countP_append,
    List.range_succ, List.countP_append, List.countP_append]
  have h1 : (List.range e).countP Q = (List.range e).countP P := by
    apply List.countP_congr
    intro i hi
    have := List.mem_range.mp hi
    rw [hsame i (by omega) (by omega)]
  have h2 : ([e] : List Nat).countP Q = 1 := by simp [List.countP_singleton, hQe]
  have h3 : ([e] : List Nat).countP P = 0 := by simp [List.countP_singleton, hPe]
  have h4 : ((List.range (c - e - 1)).map ((e + 1) + ·)).countP Q =
      ((List.range (c - e - 1)).map ((e + 1) + ·)).countP P := by
    apply List.countP_congr
    intro i hi
    obtain ⟨j, hj, rfl⟩ := List.mem_map.mp hi
    have := List.mem_range.mp hj
    rw [hsame (e + 1 + j) (by omega) (by omega)]
  omega

lemma countP_range_set_false (c e : Nat) (P Q : Nat → Bool) (he : e < c)
    (hsame : ∀ i < c, i ≠ e → Q i = P i) (hPe : P e = true) (hQe : Q e = false) :
    (List.range c).countP Q + 1 = (List.range c).countP P := by
  have := countP_range_set_true c e Q P he (fun i h1 h2 => (hsame i h1 h2).symm) hQe hPe
  omega

lemma length_bytesMap2 (f : Nat → Nat → Nat) (a b : List Nat) :
    (bytesMap2 f a b).length = a.length := by
  simp [bytesMap2]

lemma getD_bytesMap2 (f : Nat → Nat → Nat) (a b : List Nat) (i : Nat) :
    (bytesMap2 f a b).getD i 0 =
      if i < a.length then f (a.getD i 0) (b.getD i 0) else 0 := by
  unfold bytesMap2
  rw [List.getD_eq_getElem?_getD, List.getElem?_map]
  by_cases h : i < a.length
  · rw [List.getElem?_range (by simpa using h)]
    simp [h]
  · rw [List.getElem?_eq_none (by simpa using Nat.le_of_not_lt h)]
    simp [h]

lemma mem_bytesMap2 (f : Nat → Nat → Nat) (a b : List Nat) (x : Nat)
    (hx : x ∈ bytesMap2 f a b) :
    ∃ i, i < a.length ∧ x = f (a.getD i 0) (b.getD i 0) := by
  unfold bytesMap2 at hx
  obtain ⟨i, hi, rfl⟩ := List.mem_map.mp hx
  exact ⟨i, List.mem_range.mp hi, rfl⟩

lemma getD_oob (l : List Nat) (i : Nat) (h : l.length ≤ i) : l.getD i 0 = 0 := by
  rw [List.getD_eq_getElem?_getD, List.getElem?_eq_none h]
  rfl

lemma getBitL_oob (l : List Nat) (i : Nat) (h : l.length ≤ i / 8) :
    getBitL l i = false := by
  rw [getBitL_eq_testBit, getD_oob _ _ h]
  simp

lemma getBitL_bytesMap2_and (a b : List Nat) (i : Nat) :
    getBitL (bytesMap2 (fun x y => x &&& y) a b) i = (getBitL a i && getBitL b i) := by
  by_cases h : i / 8 < a.length
  · rw [getBitL_eq_testBit, getBitL_eq_testBit, getBitL_eq_testBit,
      getD_bytesMap2, if_pos h]
    simp
  · rw [getBitL_oob _ _ (by rw [length_bytesMap2]; omega),
      getBitL_oob a _ (by omega)]
    rfl

lemma getBitL_bytesMap2_or (a b : List Nat) (hlen : b.length ≤ a.length) (i : Nat) :
    getBitL (bytesMap2 (fun x y => x ||| y) a b) i = (getBitL a i || getBitL b i) := by
  by_cases h : i / 8 < a.length
  · rw [getBitL_eq_testBit, getBitL_eq_testBit, getBitL_eq_testBit,
      getD_bytesMap2, if_pos h]
    simp
  · rw [getBitL_oob _ _ (by rw [length_bytesMap2]; omega),
      getBitL_oob a _ (by omega), getBitL_oob b _ (by omega)]
    rfl

lemma getBitL_bytesMap2_sub (a b : List Nat) (i : Nat) :
    getBitL (bytesMap2 (fun x y => x &&& (y ^^^ 255)) a b) i =
      (getBitL a i && !getBitL b i) := by
  by_cases h : i / 8 < a.length
  · rw [getBitL_eq_testBit, getBitL_eq_testBit, getBitL_eq_testBit,
      getD_bytesMap2, if_pos h]
    simp [testBit_255 _ (Nat.mod_lt _ (by omega))]
  · rw [getBitL_oob _ _ (by rw [length_bytesMap2]; omega),
      getBitL_oob a _ (by omega)]
    rfl

lemma getBitL_replicate (n v i : Nat) :
    getBitL (List.replicate n v) i =
      (decide (i / 8 < n) && Nat.testBit v (i % 8)) := by
  rw [getBitL_eq_testBit, List.getD_eq_getElem?_getD, List.getElem?_replicate]
  by_cases h : i / 8 < n
  · simp [h]
  · simp [h]

lemma getBitL_map_xor (l : List Nat) (i : Nat) :
    getBitL (l.map (fun b => b ^^^ 255)) i =
      (decide (i / 8 < l.length) && !getBitL l i) := by
  by_cases h : i / 8 < l.length
  · rw [getBitL_eq_testBit, getBitL_eq_testBit, List.getD_eq_getElem?_getD,
      List.getElem?_map, List.getElem?_eq_getElem h]
    simp [h, testBit_255 _ (Nat.mod_lt _ (by omega)), List.getD_eq_getElem?_getD,
      List.getElem?_eq_getElem h]
  · rw [getBitL_oob _ _ (by simpa using Nat.le_of_not_lt h)]
    simp [h]

lemma getBitL_applyLastMask (l : List Nat) (c i : Nat)
    (hlen : l.length = (c + 7) / 8) (h8 : c % 8 ≠ 0) :
    getBitL (applyLastMask l c) i = (getBitL l i && decide (i < c)) := by
  have hc0 : c ≠ 0 := fun h => h8 (by simp [h])
  have hn : l.length = c / 8 + 1 := by omega
  unfold applyLastMask
  by_cases h1 : i / 8 = l.length - 1
  · rw [getBitL_eq_testBit, getBitL_eq_testBit, h1,
      getD_set_self _ _ _ (by omega)]
    rw [Nat.testBit_and, maskByte, Nat.one_shiftLeft, Nat.testBit_two_pow_sub_one]
    have hiff : (i % 8 < c % 8) ↔ i < c := by omega
    simp [hiff]
  · by_cases h2 : i / 8 < l.length - 1
    · rw [getBitL_eq_testBit, getBitL_eq_testBit,
        getD_set_ne _ _ _ _ (fun hh => h1 hh.symm)]
      have : i < c := by omega
      simp [this]
    · have hge : l.length ≤ i / 8 := by omega
      rw [getBitL_oob _ _ (by simpa using hge), getBitL_oob _ _ hge]
      rfl

lemma getD_replicate_le (n v j : Nat) : (List.replicate n v).getD j 0 ≤ v := by
  rw [List.getD_eq_getElem?_getD, List.getElem?_replicate]
  split <;> simp

lemma getBitL_filledBytes (c : Nat) (_hc : c ≠ 0) (i : Nat) :
    getBitL (if c % 8 != 0 then applyLastMask (List.replicate ((c + 7) / 8) 255) c
             else List.replicate ((c + 7) / 8) 255) i = decide (i < c) := by
  by_cases h8 : c % 8 = 0
  · rw [if_neg (by simp [h8])]
    rw [getBitL_replicate, testBit_255 _ (Nat.mod_lt _ (by omega))]
    have hiff : (i / 8 < (c + 7) / 8) ↔ i < c := by omega
    simp [hiff]
  · rw [if_pos (by simp [h8])]
    rw [getBitL_applyLastMask _ _ _ (by simp) h8]
    rw [getBitL_replicate, testBit_255 _ (Nat.mod_lt _ (by omega))]
    have himp : i < c → i / 8 < (c + 7) / 8 := by omega
    by_cases hi : i < c
    · simp [hi, himp hi]
    · simp [hi]

lemma bytes_filledBytes (c : Nat) :
    ∀ x ∈ (if c % 8 != 0 then applyLastMask (List.replicate ((c + 7) / 8) 255) c
           else List.replicate ((c + 7) / 8) 255), x < 256 := by
  intro x hx
  split at hx
  · unfold applyLastMask at hx
    rcases List.mem_or_eq_of_mem_set hx with hmem | rfl
    · have := List.eq_of_mem_replicate hmem
      omega
    · have h1 : (List.replicate ((c + 7) / 8) 255).getD
          ((List.replicate ((c + 7) / 8) 255 : List Nat).length - 1) 0 ≤ 255 :=
        getD_replicate_le _ _ _
      have := Nat.and_le_left
        (n := (List.replicate ((c + 7) / 8) 255).getD
          ((List.replicate ((c + 7) / 8) 255 : List Nat).length - 1) 0)
        (m := maskByte c)
      omega
  · have := List.eq_of_mem_replicate hx
    omega

lemma length_filledBytes (c : Nat) :
    (if c % 8 != 0 then applyLastMask (List.replicate ((c + 7) / 8) 255) c
     else List.replicate ((c + 7) / 8) 255 : List Nat).length = (c + 7) / 8 := by
  split <;> simp [applyLastMask]

lemma WF_bsDefault : bsDefault.WF := by decide

lemma WF_mk (c sz : Nat) (l : List Nat)
    (h1 : l.length = (c + 7) / 8) (h2 : ∀ b ∈ l, b < 256)
    (h3 : ∀ i < 8 * l.length, c ≤ i → getBitL l i = false)
    (h4 : sz = (List.range c).countP (fun i => getBitL l i)) :
    (binary_set.mk c sz l).WF := ⟨h1, h2, h3, h4⟩

lemma WF_clear (s : binary_set) (h : s.WF) : s.clear.WF := by
  obtain ⟨hlen, -, -, -⟩ := h
  exact WF_mk s.capacity_ 0 (List.replicate s.set_.length 0)
    (by simpa using hlen)
    (fun b hb => by have := List.eq_of_mem_replicate hb; omega)
    (fun i _ _ => by rw [getBitL_replicate]; simp)
    ((List.countP_eq_zero.mpr (fun a _ => by rw [getBitL_replicate]; simp)).symm)

lemma zero_filled_size (c : Nat) (hc : c ≠ 0) :
    c = (List.range c).countP (fun i =>
      getBitL (if c % 8 != 0 then applyLastMask (List.replicate ((c + 7) / 8) 255) c
               else List.replicate ((c + 7) / 8) 255) i) := by
  rw [List.countP_congr (q := fun i => decide (i < c))
    (fun i _ => by rw [getBitL_filledBytes c hc i])]
  rw [List.countP_eq_length.mpr]
  · simp
  · intro a ha
    simpa using List.mem_range.mp ha

lemma WF_filledBytes (c : Nat) (hc : c ≠ 0) :
    (binary_set.mk c c (if c % 8 != 0 then applyLastMask (List.replicate ((c + 7) / 8) 255) c
        else List.replicate ((c + 7) / 8) 255)).WF := by
  exact WF_mk c c _
    (length_filledBytes c)
    (bytes_filledBytes c)
    (fun i _ hci => by
      rw [getBitL_filledBytes c hc i]
      simp only [decide_eq_false_iff_not]
      omega)
    (zero_filled_size c hc)

lemma WF_create (c : Nat) (f : Bool) (s : binary_set) (h : binary_set.create c f = .ok s) :
    s.WF := by
  unfold binary_set.create at h
  by_cases hc : c = 0
  · rw [if_pos hc] at h
    cases h
  · rw [if_neg hc] at h
    injection h with h2
    subst h2
    cases f
    · exact WF_mk c 0 (List.replicate ((c + 7) / 8) 0)
        (by simp)
        (fun b hb => by have := List.eq_of_mem_replicate hb; omega)
        (fun i _ _ => by rw [getBitL_replicate]; simp)
        ((List.countP_eq_zero.mpr (fun a _ => by rw [getBitL_replicate]; simp)).symm)
    · exact WF_filledBytes c hc

lemma WF_fill (s : binary_set) (h : s.WF) : s.fill.WF := by
  obtain ⟨hlen, -, -, -⟩ := h
  have heq : s.fill = ⟨s.capacity_, s.capacity_,
      if (s.capacity_ % 8 != 0 && s.capacity_ != 0) then
        applyLastMask (List.replicate s.set_.length 255) s.capacity_
      else List.replicate s.set_.length 255⟩ := rfl
  rw [heq, hlen]
  by_cases hc : s.capacity_ = 0
  · rw [hc]
    decide
  · have hcond : (s.capacity_ % 8 != 0 && s.capacity_ != 0) = (s.capacity_ % 8 != 0) := by
      simp [hc]
    rw [hcond]
    exact WF_filledBytes s.capacity_ hc

lemma getD_lt_256 (l : List Nat) (j : Nat) (hb : ∀ b ∈ l, b < 256) :
    l.getD j 0 < 256 := by
  by_cases hj : j < l.length
  · rw [List.getD_eq_getElem?_getD, List.getElem?_eq_getElem hj]
    exact hb _ (List.getElem_mem hj)
  · rw [getD_oob _ _ (by omega)]
    omega

lemma WF_add (s : binary_set) (e : Nat) (h : s.WF) : (s.add e).1.WF := by
  obtain ⟨hlen, hbytes, hpad, hsize⟩ := h
  unfold binary_set.add binary_set.validate_element
  by_cases hc : s.capacity_ = 0
  · rw [if_pos hc]
    exact ⟨hlen, hbytes, hpad, hsize⟩
  · rw [if_neg hc]
    by_cases he : e ≥ s.capacity_
    · rw [if_pos he]
      exact ⟨hlen, hbytes, hpad, hsize⟩
    · rw [if_neg he]
      by_cases hbit : getBitL s.set_ e
      · rw [if_pos hbit]
        exact ⟨hlen, hbytes, hpad, hsize⟩
      · rw [if_neg hbit]
        have hdiv : e / 8 < s.set_.length := by omega
        exact WF_mk s.capacity_ (s.size_ + 1) _
          (by simpa using hlen)
          (fun b hb => by
            rcases List.mem_or_eq_of_mem_set hb with hmem | rfl
            · exact hbytes b hmem
            · have h1 : s.set_.getD (e / 8) 0 < 256 := getD_lt_256 _ _ hbytes
              have h2 : (1 <<< (e % 8)) < 256 := by
                rw [Nat.one_shiftLeft]
                calc (2 : Nat) ^ (e % 8) < 2 ^ 8 :=
                      Nat.pow_lt_pow_right (by omega) (Nat.mod_lt _ (by omega))
                  _ = 256 := by norm_num
              exact Nat.or_lt_two_pow (n := 8) h1 h2)
          (fun i hi hci => by
            rw [List.length_set] at hi
            rw [getBitL_or_update _ _ _ hdiv, hpad i hi hci]
            simp
            omega)
          (by
            rw [countP_range_set_true s.capacity_ e
              (fun i => getBitL s.set_ i)
              (fun i => getBitL (s.set_.set (e / 8)
                ((s.set_.getD (e / 8) 0) ||| (1 <<< (e % 8)))) i)
              (by omega)
              (fun i _ hne => by
                beta_reduce
                rw [getBitL_or_update _ _ _ hdiv]
                simp [hne])
              (by simpa using hbit)
              (by beta_reduce; rw [getBitL_or_update _ _ _ hdiv]; simp)]
            omega)

lemma WF_remove (s : binary_set) (e : Nat) (h : s.WF) : (s.remove e).1.WF := by
  obtain ⟨hlen, hbytes, hpad, hsize⟩ := h
  unfold binary_set.remove binary_set.validate_element
  by_cases hc : s.capacity_ = 0
  · rw [if_pos hc]
    exact ⟨hlen, hbytes, hpad, hsize⟩
  · rw [if_neg hc]
    by_cases he : e ≥ s.capacity_
    · rw [if_pos he]
      exact ⟨hlen, hbytes, hpad, hsize⟩
    · rw [if_neg he]
      by_cases hbit : getBitL s.set_ e
      · rw [if_neg (by simp [hbit])]
        have hdiv : e / 8 < s.set_.length := by omega
        have hcount := countP_range_set_false s.capacity_ e
          (fun i => getBitL s.set_ i)
          (fun i => getBitL (s.set_.set (e / 8)
            ((s.set_.getD (e / 8) 0) &&& ((1 <<< (e % 8)) ^^^ 255))) i)
          (by omega)
          (fun i _ hne => by
            beta_reduce
            rw [getBitL_and_update _ _ _ hdiv]
            simp [hne])
          hbit
          (by beta_reduce; rw [getBitL_and_update _ _ _ hdiv]; simp)
        exact WF_mk s.capacity_ (s.size_ - 1) _
          (by simpa using hlen)
          (fun b hb => by
            rcases List.mem_or_eq_of_mem_set hb with hmem | rfl
            · exact hbytes b hmem
            · have h1 : s.set_.getD (e / 8) 0 < 256 := getD_lt_256 _ _ hbytes
              have := Nat.and_le_left (n := s.set_.getD (e / 8) 0)
                (m := (1 <<< (e % 8)) ^^^ 255)
              omega)
          (fun i hi hci => by
            rw [List.length_set] at hi
            rw [getBitL_and_update _ _ _ hdiv, hpad i hi hci]
            simp)
          (by omega)
      · rw [if_pos (by simp [hbit])]
        exact ⟨hlen, hbytes, hpad, hsize⟩

lemma WF_recalc (c : Nat) (l : List Nat)
    (h1 : l.length = (c + 7) / 8) (h2 : ∀ b ∈ l, b < 256)
    (h3 : ∀ i < 8 * l.length, c ≤ i → getBitL l i = false) :
    (binary_set.mk c (popcountBytes l) l).WF :=
  WF_mk c _ l h1 h2 h3 (popcountBytes_eq_size l c (by omega) h2 h3)

lemma WF_and_core (a b : binary_set) (ha : a.WF) (_hb : b.WF) :
    (binary_set.mk a.capacity_
      (popcountBytes (bytesMap2 (fun x y => x &&& y) a.set_ b.set_))
      (bytesMap2 (fun x y => x &&& y) a.set_ b.set_)).WF := by
  obtain ⟨hal, hab, hap, -⟩ := ha
  apply WF_recalc
  · rw [length_bytesMap2]
    exact hal
  · intro x hx
    obtain ⟨i, hi, rfl⟩ := mem_bytesMap2 _ _ _ _ hx
    have h1 : a.set_.getD i 0 < 256 := getD_lt_256 _ _ hab
    have := Nat.and_le_left (n := a.set_.getD i 0) (m := b.set_.getD i 0)
    omega
  · intro i hi hci
    rw [length_bytesMap2] at hi
    rw [getBitL_bytesMap2_and, hap i hi hci]
    rfl

lemma WF_or_core (a b : binary_set) (ha : a.WF) (hb : b.WF)
    (hcap : a.capacity_ = b.capacity_) :
    (binary_set.mk a.capacity_
      (popcountBytes (bytesMap2 (fun x y => x ||| y) a.set_ b.set_))
      (bytesMap2 (fun x y => x ||| y) a.set_ b.set_)).WF := by
  obtain ⟨hal, hab, hap, -⟩ := ha
  obtain ⟨hbl, hbb, hbp, -⟩ := hb
  have hlen : b.set_.length ≤ a.set_.length := by omega
  apply WF_recalc
  · rw [length_bytesMap2]
    exact hal
  · intro x hx
    obtain ⟨i, hi, rfl⟩ := mem_bytesMap2 _ _ _ _ hx
    exact Nat.or_lt_two_pow (n := 8) (getD_lt_256 _ _ hab) (getD_lt_256 _ _ hbb)
  · intro i hi hci
    rw [length_bytesMap2] at hi
    rw [getBitL_bytesMap2_or _ _ hlen, hap i hi hci, hbp i (by omega) (by omega)]
    rfl

lemma WF_sub_core (a b : binary_set) (ha : a.WF) (_hb : b.WF) :
    (binary_set.mk a.capacity_
      (popcountBytes (bytesMap2 (fun x y => x &&& (y ^^^ 255)) a.set_ b.set_))
      (bytesMap2 (fun x y => x &&& (y ^^^ 255)) a.set_ b.set_)).WF := by
  obtain ⟨hal, hab, hap, -⟩ := ha
  apply WF_recalc
  · rw [length_bytesMap2]
    exact hal
  · intro x hx
    obtain ⟨i, hi, rfl⟩ := mem_bytesMap2 _ _ _ _ hx
    have h1 : a.set_.getD i 0 < 256 := getD_lt_256 _ _ hab
    have := Nat.and_le_left (n := a.set_.getD i 0) (m := b.set_.getD i 0 ^^^ 255)
    omega
  · intro i hi hci
    rw [length_bytesMap2] at hi
    rw [getBitL_bytesMap2_sub, hap i hi hci]
    rfl

lemma WF_opAnd (a b r : binary_set) (ha : a.WF) (hb : b.WF)
    (h : binary_set.opAnd a b = .ok r) : r.WF := by
  unfold binary_set.opAnd at h
  by_cases hcap : a.capacity_ ≠ b.capacity_
  · rw [if_pos hcap] at h
    cases h
  · rw [if_neg hcap] at h
    injection h with h2
    subst h2
    exact WF_and_core a b ha hb

lemma WF_andAssign (a b : binary_set) (ha : a.WF) (hb : b.WF) :
    (a.andAssign b).1.WF := by
  unfold binary_set.andAssign
  by_cases hcap : a.capacity_ ≠ b.capacity_
  · rw [if_pos hcap]
    exact ha
  · rw [if_neg hcap]
    exact WF_and_core a b ha hb

lemma WF_opOr (a b r : binary_set) (ha : a.WF) (hb : b.WF)
    (h : binary_set.opOr a b = .ok r) : r.WF := by
  unfold binary_set.opOr at h
  by_cases hcap : a.capacity_ ≠ b.capacity_
  · rw [if_pos hcap] at h
    cases h
  · rw [if_neg hcap] at h
    injection h with h2
    subst h2
    exact WF_or_core a b ha hb (not_ne_iff.mp hcap)

lemma WF_orAssign (a b : binary_set) (ha : a.WF) (hb : b.WF) :
    (a.orAssign b).1.WF := by
  unfold binary_set.orAssign
  by_cases hcap : a.capacity_ ≠ b.capacity_
  · rw [if_pos hcap]
    exact ha
  · rw [if_neg hcap]
    exact WF_or_core a b ha hb (not_ne_iff.mp hcap)

lemma WF_opSub (a b r : binary_set) (ha : a.WF) (hb : b.WF)
    (h : binary_set.opSub a b = .ok r) : r.WF := by
  unfold binary_set.opSub at h
  by_cases hcap : a.capacity_ ≠ b.capacity_
  · rw [if_pos hcap] at h
    cases h
  · rw [if_neg hcap] at h
    injection h with h2
    subst h2
    exact WF_sub_core a b ha hb

lemma WF_subAssign (a b : binary_set) (ha : a.WF) (hb : b.WF) :
    (a.subAssign b).1.WF := by
  unfold binary_set.subAssign
  by_cases hcap : a.capacity_ ≠ b.capacity_
  · rw [if_pos hcap]
    exact ha
  · rw [if_neg hcap]
    exact WF_sub_core a b ha hb

lemma getBitL_notBytes (s : binary_set) (hs : s.WF) (hc : s.capacity_ ≠ 0) (i : Nat) :
    getBitL (if s.capacity_ % 8 != 0 && s.capacity_ != 0 then
        applyLastMask (s.set_.map (fun b => b ^^^ 255)) s.capacity_
      else s.set_.map (fun b => b ^^^ 255)) i =
      (!getBitL s.set_ i && decide (i < s.capacity_)) := by
  obtain ⟨hal, -, -, -⟩ := hs
  have hcond : (s.capacity_ % 8 != 0 && s.capacity_ != 0) = (s.capacity_ % 8 != 0) := by
    simp [hc]
  rw [hcond]
  by_cases h8 : s.capacity_ % 8 = 0
  · rw [if_neg (by simp [h8])]
    rw [getBitL_map_xor]
    have hiff : (i / 8 < s.set_.length) ↔ i < s.capacity_ := by omega
    by_cases hi : i < s.capacity_
    · simp [hi, hiff.mpr hi]
    · have hno : ¬(i / 8 < s.set_.length) := fun hh => hi (hiff.mp hh)
      simp [hi, hno]
  · rw [if_pos (by simp [h8])]
    rw [getBitL_applyLastMask _ _ _ (by simpa using hal) h8, getBitL_map_xor]
    by_cases hi : i < s.capacity_
    · have : i / 8 < s.set_.length := by omega
      simp [hi, this]
    · simp [hi]

lemma WF_opNot (s r : binary_set) (hs : s.WF) (h : binary_set.opNot s = .ok r) :
    r.WF := by
  have hWF := hs
  obtain ⟨hal, hab, hap, -⟩ := hs
  unfold binary_set.opNot at h
  by_cases hc : s.capacity_ = 0
  · rw [if_pos hc] at h
    cases h
  · rw [if_neg hc] at h
    injection h with h2
    subst h2
    have hcond : (s.capacity_ % 8 != 0 && s.capacity_ != 0) = (s.capacity_ % 8 != 0) := by
      simp [hc]
    apply WF_recalc
    · rw [hcond]
      split
      · simp [applyLastMask, hal]
      · simpa using hal
    · rw [hcond]
      intro x hx
      split at hx
      · unfold applyLastMask at hx
        rcases List.mem_or_eq_of_mem_set hx with hmem | rfl
        · obtain ⟨y, hy, rfl⟩ := List.mem_map.mp hmem
          exact Nat.xor_lt_two_pow (n := 8) (hab y hy) (by omega)
        · have h1 : ((s.set_.map (fun b => b ^^^ 255)).getD
              ((s.set_.map (fun b => b ^^^ 255)).length - 1) 0) < 256 := by
            apply getD_lt_256
            intro x hx2
            obtain ⟨y, hy, rfl⟩ := List.mem_map.mp hx2
            exact Nat.xor_lt_two_pow (n := 8) (hab y hy) (by omega)
          have := Nat.and_le_left
            (n := (s.set_.map (fun b => b ^^^ 255)).getD
              ((s.set_.map (fun b => b ^^^ 255)).length - 1) 0)
            (m := maskByte s.capacity_)
          omega
      · obtain ⟨y, hy, rfl⟩ := List.mem_map.mp hx
        exact Nat.xor_lt_two_pow (n := 8) (hab y hy) (by omega)
    · intro i hi hci
      rw [getBitL_notBytes s hWF hc i]
      simp
      omega

/-- Every reachable `binary_set` value is well formed. -/
lemma Reachable_WF (s : binary_set) (h : s.Reachable) : s.WF := by
  induction h with
  | ofDefault => exact WF_bsDefault
  | ofCreate c f s h => exact WF_create c f s h
  | ofAdd s e _ ih => exact WF_add s e ih
  | ofRemove s e _ ih => exact WF_remove s e ih
  | ofClear s _ ih => exact WF_clear s ih
  | ofFill s _ ih => exact WF_fill s ih
  | ofAnd a b r _ _ h iha ihb => exact WF_opAnd a b r iha ihb h
  | ofAndAssign a b _ _ iha ihb => exact WF_andAssign a b iha ihb
  | ofOr a b r _ _ h iha ihb => exact WF_opOr a b r iha ihb h
  | ofOrAssign a b _ _ iha ihb => exact WF_orAssign a b iha ihb
  | ofSub a b r _ _ h iha ihb => exact WF_opSub a b r iha ihb h
  | ofSubAssign a b _ _ iha ihb => exact WF_subAssign a b iha ihb
  | ofNot s r _ h ih => exact WF_opNot s r ih h

lemma contains_spec (s : binary_set) (e : Nat) (hc0 : s.capacity_ ≠ 0)
    (he : e < s.capacity_) :
    s.contains e = .ok (getBitL s.set_ e) := by
  unfold binary_set.contains binary_set.validate_element
  rw [if_neg hc0, if_neg (by omega)]

lemma add_not_present (s : binary_set) (e : Nat) (hc0 : s.capacity_ ≠ 0)
    (he : e < s.capacity_) (hbit : getBitL s.set_ e = false) :
    s.add e = (⟨s.capacity_, s.size_ + 1,
      s.set_.set (e / 8) ((s.set_.getD (e / 8) 0) ||| (1 <<< (e % 8)))⟩, .ok true) := by
  unfold binary_set.add binary_set.validate_element
  rw [if_neg hc0, if_neg (by omega), if_neg (by simp [hbit])]

lemma remove_present (s : binary_set) (e : Nat) (hc0 : s.capacity_ ≠ 0)
    (he : e < s.capacity_) (hbit : getBitL s.set_ e = true) :
    s.remove e = (⟨s.capacity_, s.size_ - 1,
      s.set_.set (e / 8) ((s.set_.getD (e / 8) 0) &&& ((1 <<< (e % 8)) ^^^ 255))⟩, .ok true) := by
  unfold binary_set.remove binary_set.validate_element
  rw [if_neg hc0, if_neg (by omega), if_neg (by simp [hbit])]

/-! ### Claims about `binary_set` -/

/-- **C4**: for every `binary_set` with capacity `c` reachable by any
sequence of operations (construction with optional fill, add, remove,
clear, fill, in-place and copying boolean operations, complement),
`size_` equals the number of indices `i ∈ [0, c)` with `contains i`
returning `true`, which is the true population count of the backing
store. -/
theorem C4_size_invariant (s : binary_set) (h : s.Reachable) :
    s.size_ = (List.range s.capacity_).countP (fun i => decide (s.contains i = .ok true))
    ∧ s.size_ = popcountBytes s.set_ := by
  have hWF := Reachable_WF s h
  obtain ⟨hlen, hbytes, hpad, hsize⟩ := hWF
  constructor
  · rw [hsize]
    apply List.countP_congr
    intro i hi
    have hic : i < s.capacity_ := List.mem_range.mp hi
    have hc0 : s.capacity_ ≠ 0 := by omega
    have hcont : s.contains i = .ok (getBitL s.set_ i) := contains_spec s i hc0 hic
    simp [hcont]
  · rw [hsize, popcountBytes_eq_size s.set_ s.capacity_ (by omega) hbytes hpad]

/-- Witness for C4 at the filled 13-element set built by the constructor. -/
theorem C4_size_invariant_witness :
    (⟨13, 13, [255, 31]⟩ : binary_set).size_ =
      (List.range (⟨13, 13, [255, 31]⟩ : binary_set).capacity_).countP
        (fun i => decide ((⟨13, 13, [255, 31]⟩ : binary_set).contains i = .ok true))
    ∧ (⟨13, 13, [255, 31]⟩ : binary_set).size_ = popcountBytes [255, 31] :=
  C4_size_invariant ⟨13, 13, [255, 31]⟩
    (binary_set.Reachable.ofCreate 13 true _ (by decide))

/-- **C5, counterexample**: the claim fails when the element is already in
the set: `⟨1,1,[1]⟩` is the constructed set of capacity 1 containing
element 0; `add 0` is a no-op returning `false`, so the subsequent
`remove 0` drops the size to 0, not back to its prior value 1. -/
theorem C5_cex :
    binary_set.create 1 true = .ok ⟨1, 1, [1]⟩
    ∧ ((((⟨1, 1, [1]⟩ : binary_set).add 0).1.remove 0).1.size_ ≠
        (⟨1, 1, [1]⟩ : binary_set).size_) := by
  decide

/-- **C5 (amended)**: for every reachable `binary_set` `s` and element
`e < capacity` *not already present*, `add e` followed by `remove e`
restores `contains e = ok false` and restores `size_` to its prior
value. -/
theorem C5_add_remove_roundtrip (s : binary_set) (e : Nat) (hr : s.Reachable)
    (he : e < s.capacity_) (hnot : s.contains e = .ok false) :
    (((s.add e).1.remove e).1.contains e = .ok false)
    ∧ ((s.add e).1.remove e).1.size_ = s.size_ := by
  obtain ⟨hlen, hbytes, hpad, hsize⟩ := Reachable_WF s hr
  have hc0 : s.capacity_ ≠ 0 := by omega
  have hdiv : e / 8 < s.set_.length := by omega
  have hbit : getBitL s.set_ e = false := by
    rw [contains_spec s e hc0 he] at hnot
    injection hnot
  have h1 := add_not_present s e hc0 he hbit
  have hbit1 : getBitL (s.set_.set (e / 8)
      ((s.set_.getD (e / 8) 0) ||| (1 <<< (e % 8)))) e = true := by
    rw [getBitL_or_update _ _ _ hdiv]
    simp
  have hdiv1 : e / 8 < (s.set_.set (e / 8)
      ((s.set_.getD (e / 8) 0) ||| (1 <<< (e % 8)))).length := by
    rw [List.length_set]
    omega
  have h2 := remove_present (⟨s.capacity_, s.size_ + 1,
      s.set_.set (e / 8) ((s.set_.getD (e / 8) 0) ||| (1 <<< (e % 8)))⟩ : binary_set)
      e hc0 he hbit1
  have hstate : ((s.add e).1.remove e).1 = ⟨s.capacity_, s.size_,
      (s.set_.set (e / 8) ((s.set_.getD (e / 8) 0) ||| (1 <<< (e % 8)))).set (e / 8)
        (((s.set_.set (e / 8) ((s.set_.getD (e / 8) 0) ||| (1 <<< (e % 8)))).getD (e / 8) 0)
          &&& ((1 <<< (e % 8)) ^^^ 255))⟩ := by
    rw [h1]
    exact congrArg Prod.fst h2
  rw [hstate]
  constructor
  · have hb2 : getBitL ((s.set_.set (e / 8) ((s.set_.getD (e / 8) 0) ||| (1 <<< (e % 8)))).set (e / 8)
        (((s.set_.set (e / 8) ((s.set_.getD (e / 8) 0) ||| (1 <<< (e % 8)))).getD (e / 8) 0)
          &&& ((1 <<< (e % 8)) ^^^ 255))) e = false := by
      rw [getBitL_and_update _ _ _ hdiv1]
      simp
    exact (contains_spec _ e (by exact hc0) (by exact he)).trans (congrArg Except.ok hb2)
  · rfl

/-- Witness for C5 at the empty set of capacity 2 with element 1. -/
theorem C5_add_remove_roundtrip_witness :
    ((((⟨2, 0, [0]⟩ : binary_set).add 1).1.remove 1).1.contains 1 = .ok false)
    ∧ (((⟨2, 0, [0]⟩ : binary_set).add 1).1.remove 1).1.size_ =
        (⟨2, 0, [0]⟩ : binary_set).size_ :=
  C5_add_remove_roundtrip ⟨2, 0, [0]⟩ 1
    (binary_set.Reachable.ofCreate 2 false _ (by decide)) (by decide) (by decide)

/-- **C7**: no operation of `binary_set` or `bs_searcher` mutates an
operand before failing (every error case returns the operands untouched),
and the four error kinds — InvalidCapacity (constructing with capacity 0),
CapacityMismatch (operand capacities differ, or differ from the index's
capacity), DomainEmpty (element operation on a capacity-0 set) and
OutOfRange (element index at or above capacity) — are distinguishable
values, never merged. -/
theorem C7_error_kinds (e eo v : Nat) (f : Bool) (s t a b bq : binary_set)
    (sr : bs_searcher)
    (hs : s.capacity_ = 0) (ht : t.capacity_ ≠ 0) (hto : t.capacity_ ≤ eo)
    (hab : a.capacity_ ≠ b.capacity_) (hsr : sr.capacity_ ≠ bq.capacity_) :
    binary_set.create 0 f = .error errInvalidCapacity
    ∧ s.add e = (s, .error errDomainEmpty)
    ∧ s.remove e = (s, .error errDomainEmpty)
    ∧ s.contains e = .error errDomainEmpty
    ∧ s.sparse = .error errDomainEmpty
    ∧ t.add eo = (t, .error errOutOfRange)
    ∧ t.remove eo = (t, .error errOutOfRange)
    ∧ t.contains eo = .error errOutOfRange
    ∧ a.opAnd b = .error errCapacityMismatch
    ∧ a.opOr b = .error errCapacityMismatch
    ∧ a.opSub b = .error errCapacityMismatch
    ∧ a.opEq b = .error errCapacityMismatch
    ∧ a.andAssign b = (a, .error errCapacityMismatch)
    ∧ a.orAssign b = (a, .error errCapacityMismatch)
    ∧ a.subAssign b = (a, .error errCapacityMismatch)
    ∧ sr.add v bq = (sr, .error errSearcherCapacity)
    ∧ sr.remove v bq = (sr, .error errSearcherCapacity)
    ∧ sr.find_subsets bq = .error errSearcherCapacity
    ∧ errInvalidCapacity ≠ errCapacityMismatch
    ∧ errInvalidCapacity ≠ errDomainEmpty
    ∧ errInvalidCapacity ≠ errOutOfRange
    ∧ errCapacityMismatch ≠ errDomainEmpty
    ∧ errCapacityMismatch ≠ errOutOfRange
    ∧ errDomainEmpty ≠ errOutOfRange := by
  refine ⟨rfl, ?_, ?_, ?_, ?_, ?_, ?_, ?_, ?_, ?_, ?_, ?_, ?_, ?_, ?_, ?_, ?_, ?_,
    by decide, by decide, by decide, by decide, by decide, by decide⟩
  · unfold binary_set.add binary_set.validate_element
    rw [if_pos hs]
  · unfold binary_set.remove binary_set.validate_element
    rw [if_pos hs]
  · unfold binary_set.contains binary_set.validate_element
    rw [if_pos hs]
  · unfold binary_set.sparse
    rw [if_pos hs]
  · unfold binary_set.add binary_set.validate_element
    rw [if_neg ht, if_pos hto]
  · unfold binary_set.remove binary_set.validate_element
    rw [if_neg ht, if_pos hto]
  · unfold binary_set.contains binary_set.validate_element
    rw [if_neg ht, if_pos hto]
  · unfold binary_set.opAnd
    rw [if_pos hab]
  · unfold binary_set.opOr
    rw [if_pos hab]
  · unfold binary_set.opSub
    rw [if_pos hab]
  · unfold binary_set.opEq
    rw [if_pos hab]
  · unfold binary_set.andAssign
    rw [if_pos hab]
  · unfold binary_set.orAssign
    rw [if_pos hab]
  · unfold binary_set.subAssign
    rw [if_pos hab]
  · unfold bs_searcher.add
    rw [if_pos hsr]
  · unfold bs_searcher.remove
    rw [if_pos hsr]
  · unfold bs_searcher.find_subsets
    rw [if_pos hsr]

/-- Witness for C7 at concrete operands triggering every failure kind. -/
theorem C7_error_kinds_witness :
    binary_set.create 0 false = .error errInvalidCapacity
    ∧ bsDefault.add 3 = (bsDefault, .error errDomainEmpty)
    ∧ bsDefault.remove 3 = (bsDefault, .error errDomainEmpty)
    ∧ bsDefault.contains 3 = .error errDomainEmpty
    ∧ bsDefault.sparse = .error errDomainEmpty
    ∧ (⟨1, 0, [0]⟩ : binary_set).add 5 = (⟨1, 0, [0]⟩, .error errOutOfRange)
    ∧ (⟨1, 0, [0]⟩ : binary_set).remove 5 = (⟨1, 0, [0]⟩, .error errOutOfRange)
    ∧ (⟨1, 0, [0]⟩ : binary_set).contains 5 = .error errOutOfRange
    ∧ (⟨1, 0, [0]⟩ : binary_set).opAnd ⟨2, 0, [0]⟩ = .error errCapacityMismatch
    ∧ (⟨1, 0, [0]⟩ : binary_set).opOr ⟨2, 0, [0]⟩ = .error errCapacityMismatch
    ∧ (⟨1, 0, [0]⟩ : binary_set).opSub ⟨2, 0, [0]⟩ = .error errCapacityMismatch
    ∧ (⟨1, 0, [0]⟩ : binary_set).opEq ⟨2, 0, [0]⟩ = .error errCapacityMismatch
    ∧ (⟨1, 0, [0]⟩ : binary_set).andAssign ⟨2, 0, [0]⟩ =
        (⟨1, 0, [0]⟩, .error errCapacityMismatch)
    ∧ (⟨1, 0, [0]⟩ : binary_set).orAssign ⟨2, 0, [0]⟩ =
        (⟨1, 0, [0]⟩, .error errCapacityMismatch)
    ∧ (⟨1, 0, [0]⟩ : binary_set).subAssign ⟨2, 0, [0]⟩ =
        (⟨1, 0, [0]⟩, .error errCapacityMismatch)
    ∧ (bs_searcher.init 1).add 7 ⟨2, 0, [0]⟩ =
        (bs_searcher.init 1, .error errSearcherCapacity)
    ∧ (bs_searcher.init 1).remove 7 ⟨2, 0, [0]⟩ =
        (bs_searcher.init 1, .error errSearcherCapacity)
    ∧ (bs_searcher.init 1).find_subsets ⟨2, 0, [0]⟩ = .error errSearcherCapacity
    ∧ errInvalidCapacity ≠ errCapacityMismatch
    ∧ errInvalidCapacity ≠ errDomainEmpty
    ∧ errInvalidCapacity ≠ errOutOfRange
    ∧ errCapacityMismatch ≠ errDomainEmpty
    ∧ errCapacityMismatch ≠ errOutOfRange
    ∧ errDomainEmpty ≠ errOutOfRange :=
  C7_error_kinds 3 5 7 false bsDefault ⟨1, 0, [0]⟩ ⟨1, 0, [0]⟩ ⟨2, 0, [0]⟩ ⟨2, 0, [0]⟩
    (bs_searcher.init 1) (by decide) (by decide) (by decide) (by decide) (by decide)

/-- **C8**: on a default-constructed `binary_set` (capacity 0), the
complement operator fails with the invalid-argument condition of the
constructor it calls, while `add`, `remove`, `contains` and `sparse` fail
with the domain condition, and `clear`, `fill`, `empty`, `size` succeed. -/
theorem C8_default_set_ops (e : Nat) :
    binary_set.opNot bsDefault = .error errInvalidCapacity
    ∧ bsDefault.add e = (bsDefault, .error errDomainEmpty)
    ∧ bsDefault.remove e = (bsDefault, .error errDomainEmpty)
    ∧ bsDefault.contains e = .error errDomainEmpty
    ∧ bsDefault.sparse = .error errDomainEmpty
    ∧ bsDefault.clear = bsDefault
    ∧ bsDefault.fill = bsDefault
    ∧ bsDefault.empty = true
    ∧ bsDefault.size_ = 0
    ∧ errInvalidCapacity ≠ errDomainEmpty := by
  refine ⟨by decide, ?_, ?_, ?_, by decide, by decide, by decide, by decide, by decide,
    by decide⟩ <;> rfl

lemma testBit_byte_high (x j : Nat) (hx : x < 256) (hj : 8 ≤ j) :
    x.testBit j = false := by
  apply Nat.testBit_lt_two_pow
  calc x < 256 := hx
    _ = 2 ^ 8 := by norm_num
    _ ≤ 2 ^ j := Nat.pow_le_pow_right (by omega) hj

lemma demorgan_byte_plain (x y : Nat) (hx : x < 256) (hy : y < 256) :
    (x &&& y) ^^^ 255 = (x ^^^ 255) ||| (y ^^^ 255) := by
  apply Nat.eq_of_testBit_eq
  intro j
  simp only [Nat.testBit_and, Nat.testBit_xor, Nat.testBit_or]
  by_cases hj : j < 8
  · rw [testBit_255 _ hj]
    cases x.testBit j <;> cases y.testBit j <;> rfl
  · rw [testBit_byte_high x j hx (by omega), testBit_byte_high y j hy (by omega),
      testBit_byte_high 255 j (by omega) (by omega)]
    rfl

lemma demorgan_byte (x y m : Nat) (hx : x < 256) (hy : y < 256) :
    ((x &&& y) ^^^ 255) &&& m = ((x ^^^ 255) &&& m) ||| ((y ^^^ 255) &&& m) := by
  apply Nat.eq_of_testBit_eq
  intro j
  simp only [Nat.testBit_and, Nat.testBit_xor, Nat.testBit_or]
  by_cases hj : j < 8
  · rw [testBit_255 _ hj]
    cases x.testBit j <;> cases y.testBit j <;> cases m.testBit j <;> rfl
  · rw [testBit_byte_high x j hx (by omega), testBit_byte_high y j hy (by omega),
      testBit_byte_high 255 j (by omega) (by omega)]
    cases m.testBit j <;> rfl

lemma list_ext_getD (a b : List Nat) (h1 : a.length = b.length)
    (h2 : ∀ i < a.length, a.getD i 0 = b.getD i 0) : a = b := by
  apply List.ext_getElem h1
  intro i hi1 hi2
  have h := h2 i hi1
  rw [List.getD_eq_getElem?_getD, List.getD_eq_getElem?_getD,
    List.getElem?_eq_getElem hi1, List.getElem?_eq_getElem hi2] at h
  simpa using h

lemma getD_map_xor (l : List Nat) (i : Nat) :
    (l.map (fun x => x ^^^ 255)).getD i 0 =
      if i < l.length then (l.getD i 0) ^^^ 255 else 0 := by
  rw [List.getD_eq_getElem?_getD, List.getElem?_map]
  by_cases h : i < l.length
  · rw [List.getElem?_eq_getElem h]
    simp [h, List.getD_eq_getElem?_getD, List.getElem?_eq_getElem h]
  · rw [List.getElem?_eq_none (by omega)]
    simp [h]

lemma getD_applyLastMask (l : List Nat) (c i : Nat) (hne : l.length ≠ 0) :
    (applyLastMask l c).getD i 0 =
      if i = l.length - 1 then (l.getD i 0) &&& maskByte c else l.getD i 0 := by
  unfold applyLastMask
  by_cases hi : i = l.length - 1
  · rw [if_pos hi, hi, getD_set_self _ _ _ (by omega)]
  · rw [if_neg hi, getD_set_ne _ _ _ _ (fun hh => hi hh.symm)]

lemma demorgan_bytes (a b : binary_set) (ha : a.WF) (hb : b.WF)
    (hcap : a.capacity_ = b.capacity_) (hc : a.capacity_ ≠ 0) :
    (if a.capacity_ % 8 != 0 && a.capacity_ != 0 then
        applyLastMask ((bytesMap2 (fun x y => x &&& y) a.set_ b.set_).map
          (fun x => x ^^^ 255)) a.capacity_
      else (bytesMap2 (fun x y => x &&& y) a.set_ b.set_).map (fun x => x ^^^ 255))
    = bytesMap2 (fun x y => x ||| y)
        (if a.capacity_ % 8 != 0 && a.capacity_ != 0 then
            applyLastMask (a.set_.map (fun x => x ^^^ 255)) a.capacity_
          else a.set_.map (fun x => x ^^^ 255))
        (if b.capacity_ % 8 != 0 && b.capacity_ != 0 then
            applyLastMask (b.set_.map (fun x => x ^^^ 255)) b.capacity_
          else b.set_.map (fun x => x ^^^ 255)) := by
  obtain ⟨hal, hab, -, -⟩ := ha
  obtain ⟨hbl, hbb, -, -⟩ := hb
  have hlen : b.set_.length = a.set_.length := by omega
  have hn0 : a.set_.length ≠ 0 := by omega
  have hA : (bytesMap2 (fun x y => x &&& y) a.set_ b.set_).length = a.set_.length :=
    length_bytesMap2 _ _ _
  have hcond : (a.capacity_ % 8 != 0 && a.capacity_ != 0) = (a.capacity_ % 8 != 0) := by
    simp [hc]
  have hcondb : (b.capacity_ % 8 != 0 && b.capacity_ != 0) = (a.capacity_ % 8 != 0) := by
    rw [← hcap]
    exact hcond
  rw [hcond, hcondb, ← hcap]
  have hgA : ∀ i < a.set_.length,
      ((bytesMap2 (fun x y => x &&& y) a.set_ b.set_).map (fun x => x ^^^ 255)).getD i 0 =
        ((a.set_.getD i 0) &&& (b.set_.getD i 0)) ^^^ 255 := by
    intro i hi
    rw [getD_map_xor, if_pos (by omega), getD_bytesMap2, if_pos hi]
  have hga : ∀ i < a.set_.length,
      (a.set_.map (fun x => x ^^^ 255)).getD i 0 = (a.set_.getD i 0) ^^^ 255 := by
    intro i hi
    rw [getD_map_xor, if_pos hi]
  have hgb : ∀ i < a.set_.length,
      (b.set_.map (fun x => x ^^^ 255)).getD i 0 = (b.set_.getD i 0) ^^^ 255 := by
    intro i hi
    rw [getD_map_xor, if_pos (by omega)]
  by_cases h8 : a.capacity_ % 8 = 0
  · rw [if_neg (by simp [h8]), if_neg (by simp [h8]), if_neg (by simp [h8])]
    apply list_ext_getD
    · rw [List.length_map, length_bytesMap2, length_bytesMap2, List.length_map]
    · intro i hi
      rw [List.length_map, length_bytesMap2] at hi
      rw [hgA i hi, getD_bytesMap2, if_pos (by rw [List.length_map]; omega),
        hga i hi, hgb i hi]
      exact demorgan_byte_plain _ _ (getD_lt_256 _ _ hab) (getD_lt_256 _ _ hbb)
  · rw [if_pos (by simp [h8]), if_pos (by simp [h8]), if_pos (by simp [h8])]
    apply list_ext_getD
    · simp [applyLastMask, bytesMap2]
    · intro i hi
      have hi2 : i < a.set_.length := by
        simpa [applyLastMask, bytesMap2] using hi
      rw [getD_applyLastMask _ _ _ (by rw [List.length_map, length_bytesMap2]; omega),
        getD_bytesMap2,
        getD_applyLastMask _ _ _ (by rw [List.length_map]; omega),
        getD_applyLastMask _ _ _ (by rw [List.length_map]; omega)]
      rw [if_pos (show i < (applyLastMask (List.map (fun x => x ^^^ 255) a.set_)
        a.capacity_).length from by simp [applyLastMask]; omega)]
      simp only [List.length_map, length_bytesMap2, hlen]
      by_cases hi1 : i = a.set_.length - 1
      · rw [if_pos hi1, if_pos hi1, if_pos hi1]
        rw [hgA i hi2, hga i hi2, hgb i hi2]
        exact demorgan_byte _ _ _ (getD_lt_256 _ _ hab) (getD_lt_256 _ _ hbb)
      · rw [if_neg hi1, if_neg hi1, if_neg hi1]
        rw [hgA i hi2, hga i hi2, hgb i hi2]
        exact demorgan_byte_plain _ _ (getD_lt_256 _ _ hab) (getD_lt_256 _ _ hbb)

lemma opEq_refl_aux (c s1 s2 : Nat) (l1 l2 : List Nat) (hl : l1 = l2) :
    binary_set.opEq ⟨c, s1, l1⟩ ⟨c, s2, l2⟩ = .ok true := by
  unfold binary_set.opEq
  split
  · rename_i hne
    exact absurd rfl hne
  · exact congrArg Except.ok (by rw [hl]; exact beq_self_eq_true l2)

/-- **C6, counterexample**: for the pair of default-constructed
(capacity-0) `binary_set`s — equal capacities — the claimed identity does
not hold: `a & b` succeeds but the complement `!` of the result fails with
the invalid-argument condition, so `!(a & b)` has no value to compare. -/
theorem C6_cex :
    binary_set.opAnd bsDefault bsDefault = .ok bsDefault
    ∧ (binary_set.opAnd bsDefault bsDefault).bind binary_set.opNot =
        .error errInvalidCapacity := by
  decide

lemma bind_ok_eq {ε α β : Type} (x : α) (f : α → Except ε β) :
    (Except.ok x : Except ε α).bind f = f x := rfl

lemma opAnd_eq (x y : binary_set) (hxy : x.capacity_ = y.capacity_) :
    binary_set.opAnd x y = .ok ⟨x.capacity_,
      popcountBytes (bytesMap2 (fun u v => u &&& v) x.set_ y.set_),
      bytesMap2 (fun u v => u &&& v) x.set_ y.set_⟩ := by
  unfold binary_set.opAnd
  rw [if_neg (by omega)]

lemma opOr_eq (x y : binary_set) (hxy : x.capacity_ = y.capacity_) :
    binary_set.opOr x y = .ok ⟨x.capacity_,
      popcountBytes (bytesMap2 (fun u v => u ||| v) x.set_ y.set_),
      bytesMap2 (fun u v => u ||| v) x.set_ y.set_⟩ := by
  unfold binary_set.opOr
  rw [if_neg (by omega)]

lemma opNot_eq (x : binary_set) (hx : x.capacity_ ≠ 0) :
    binary_set.opNot x = .ok ⟨x.capacity_,
      popcountBytes (if x.capacity_ % 8 != 0 && x.capacity_ != 0 then
          applyLastMask (x.set_.map (fun u => u ^^^ 255)) x.capacity_
        else x.set_.map (fun u => u ^^^ 255)),
      (if x.capacity_ % 8 != 0 && x.capacity_ != 0 then
          applyLastMask (x.set_.map (fun u => u ^^^ 255)) x.capacity_
        else x.set_.map (fun u => u ^^^ 255))⟩ := by
  unfold binary_set.opNot
  rw [if_neg hx]

/-- **C6 (amended)**: for every pair of well-formed `binary_set`s `a`, `b`
of equal *nonzero* capacity, `!(a & b) == (!a) | (!b)` holds: both sides
evaluate without error, `operator==` returns `true`, and the backing
stores agree byte for byte. -/
theorem C6_demorgan (a b : binary_set) (ha : a.WF) (hb : b.WF)
    (hcap : a.capacity_ = b.capacity_) (hc : a.capacity_ ≠ 0) :
    ∃ lhs rhs,
      (binary_set.opAnd a b).bind binary_set.opNot = .ok lhs
      ∧ (binary_set.opNot a).bind (fun na =>
          (binary_set.opNot b).bind (fun nb => binary_set.opOr na nb)) = .ok rhs
      ∧ binary_set.opEq lhs rhs = .ok true
      ∧ lhs.set_ = rhs.set_ := by
  have hLR := demorgan_bytes a b ha hb hcap hc
  refine ⟨⟨a.capacity_, popcountBytes (if a.capacity_ % 8 != 0 && a.capacity_ != 0 then
          applyLastMask ((bytesMap2 (fun x y => x &&& y) a.set_ b.set_).map
            (fun x => x ^^^ 255)) a.capacity_
        else (bytesMap2 (fun x y => x &&& y) a.set_ b.set_).map (fun x => x ^^^ 255)),
      (if a.capacity_ % 8 != 0 && a.capacity_ != 0 then
          applyLastMask ((bytesMap2 (fun x y => x &&& y) a.set_ b.set_).map
            (fun x => x ^^^ 255)) a.capacity_
        else (bytesMap2 (fun x y => x &&& y) a.set_ b.set_).map (fun x => x ^^^ 255))⟩,
    ⟨a.capacity_, popcountBytes (bytesMap2 (fun x y => x ||| y)
        (if a.capacity_ % 8 != 0 && a.capacity_ != 0 then
            applyLastMask (a.set_.map (fun x => x ^^^ 255)) a.capacity_
          else a.set_.map (fun x => x ^^^ 255))
        (if b.capacity_ % 8 != 0 && b.capacity_ != 0 then
            applyLastMask (b.set_.map (fun x => x ^^^ 255)) b.capacity_
          else b.set_.map (fun x => x ^^^ 255))),
      (bytesMap2 (fun x y => x ||| y)
        (if a.capacity_ % 8 != 0 && a.capacity_ != 0 then
            applyLastMask (a.set_.map (fun x => x ^^^ 255)) a.capacity_
          else a.set_.map (fun x => x ^^^ 255))
        (if b.capacity_ % 8 != 0 && b.capacity_ != 0 then
            applyLastMask (b.set_.map (fun x => x ^^^ 255)) b.capacity_
          else b.set_.map (fun x => x ^^^ 255)))⟩, ?_, ?_, ?_, ?_⟩
  · rw [opAnd_eq a b hcap]
    simp only [bind_ok_eq]
    exact opNot_eq _ (by exact hc)
  · rw [opNot_eq a hc, opNot_eq b (show b.capacity_ ≠ 0 by omega)]
    simp only [bind_ok_eq]
    exact opOr_eq _ _ (by exact hcap)
  · exact opEq_refl_aux a.capacity_ _ _ _ _ hLR
  · exact hLR

/-- Witness for C6 at two concrete well-formed sets of capacity 13. -/
theorem C6_demorgan_witness :
    ∃ lhs rhs,
      (binary_set.opAnd ⟨13, 13, [255, 31]⟩ ⟨13, 2, [3, 0]⟩).bind binary_set.opNot = .ok lhs
      ∧ (binary_set.opNot ⟨13, 13, [255, 31]⟩).bind (fun na =>
          (binary_set.opNot ⟨13, 2, [3, 0]⟩).bind
            (fun nb => binary_set.opOr na nb)) = .ok rhs
      ∧ binary_set.opEq lhs rhs = .ok true
      ∧ lhs.set_ = rhs.set_ :=
  C6_demorgan ⟨13, 13, [255, 31]⟩ ⟨13, 2, [3, 0]⟩
    (by decide) (by decide) (by decide) (by decide)

/-! ### Searcher lemmas -/

lemma swap_pop_perm : ∀ (l : List Nat) (v : Nat), v ∈ l →
    (swap_pop l v).Perm (l.erase v) := by
  intro l
  induction l with
  | nil => intro v hv; cases hv
  | cons a t ih =>
    intro v hv
    by_cases hav : a = v
    · subst hav
      unfold swap_pop
      rw [List.indexOf_cons_self, List.set_cons_zero, List.erase_cons_head]
      match t with
      | [] => simp
      | b :: t' =>
        have hne : (b :: t' : List Nat) ≠ [] := by simp
        have hlast : (a :: b :: t').getLastD 0 = (b :: t').getLast hne := by
          rw [List.getLastD_eq_getLast?, List.getLast?_cons_cons,
            List.getLast?_eq_getLast _ hne]
          rfl
        rw [hlast, List.dropLast_cons_of_ne_nil hne]
        have hperm : ((b :: t').getLast hne :: (b :: t').dropLast).Perm
            ((b :: t').dropLast ++ [(b :: t').getLast hne]) :=
          (List.perm_append_singleton _ _).symm
        rw [List.dropLast_concat_getLast hne] at hperm
        exact hperm
    · have hvt : v ∈ t := by
        rcases List.mem_cons.mp hv with h | h
        · exact absurd h.symm hav
        · exact h
      have ht : t ≠ [] := List.ne_nil_of_mem hvt
      unfold swap_pop
      have hidx : (a :: t).indexOf v = t.indexOf v + 1 := by
        have hbeq : (a == v) = false := by simpa using hav
        simp [List.indexOf, List.findIdx_cons, hbeq]
      rw [hidx, List.set_cons_succ]
      have hlast : (a :: t).getLastD 0 = t.getLastD 0 := by
        rw [List.getLastD_eq_getLast?, List.getLastD_eq_getLast?, List.getLast?_cons]
        obtain ⟨z, hz⟩ := Option.isSome_iff_exists.mp (List.getLast?_isSome.mpr ht)
        rw [hz]
        rfl
      rw [hlast]
      have hset : t.set (t.indexOf v) (t.getLastD 0) ≠ [] := by
        intro hcon
        have := congrArg List.length hcon
        simp at this
        exact ht this
      rw [List.dropLast_cons_of_ne_nil hset,
        List.erase_cons_tail (by simpa using hav)]
      exact (ih v hvt).cons a

lemma swap_pop_count_self (l : List Nat) (v : Nat) (hv : v ∈ l) :
    (swap_pop l v).count v + 1 = l.count v := by
  rw [(swap_pop_perm l v hv).count_eq, List.count_erase_self]
  have := List.count_pos_iff.mpr hv
  omega

lemma entries_mk (vs : List Nat) (l r : treenode) :
    (treenode.mk vs l r).entries = vs.map (fun v => (([] : List Bool), v))
      ++ l.entries.map (fun e => (false :: e.1, e.2))
      ++ r.entries.map (fun e => (true :: e.1, e.2)) := rfl

lemma entries_decomp (t : treenode) :
    t.entries = t.values.map (fun v => (([] : List Bool), v))
      ++ t.left.entries.map (fun e => (false :: e.1, e.2))
      ++ t.right.entries.map (fun e => (true :: e.1, e.2)) := by
  cases t <;> rfl

lemma addPath_entries : ∀ (p : List Bool) (t : treenode) (v : Nat),
    (addPath t p v).entries.Perm ((p, v) :: t.entries) := by
  intro p
  induction p with
  | nil =>
    intro t v
    rw [show addPath t [] v = .mk (t.values ++ [v]) t.left t.right from rfl]
    rw [entries_mk, entries_decomp t, List.map_append]
    simp only [List.append_assoc, List.singleton_append, List.map_cons, List.map_nil]
    exact List.perm_middle
  | cons b rest ih =>
    intro t v
    cases b
    · rw [show addPath t (false :: rest) v =
          .mk t.values (addPath t.left rest v) t.right from rfl]
      rw [entries_mk, entries_decomp t]
      have h1 := (ih t.left v).map (fun e => ((false :: e.1 : List Bool), e.2))
      simp only [List.append_assoc]
      refine ((h1.append_right _).append_left _).trans ?_
      simp only [List.map_cons, List.cons_append]
      exact List.perm_middle
    · rw [show addPath t (true :: rest) v =
          .mk t.values t.left (addPath t.right rest v) from rfl]
      rw [entries_mk, entries_decomp t]
      have h1 := (ih t.right v).map (fun e => ((true :: e.1 : List Bool), e.2))
      simp only [List.append_assoc]
      refine ((h1.append_left _).append_left _).trans ?_
      simp only [List.map_cons, ← List.append_assoc]
      exact List.perm_middle

lemma isNil_eq (t : treenode) (h : t.isNil = true) : t = .nil := by
  cases t
  · rfl
  · simp [treenode.isNil] at h

lemma descend_nil : ∀ (p : List Bool), descend .nil p = .nil := by
  intro p
  induction p with
  | nil => rfl
  | cons b rest ih => cases b <;> exact ih

lemma removeAux_none_iff : ∀ (p : List Bool) (t : treenode) (v : Nat),
    removeAux t p v = none ↔
      ((descend t p).isNil = true ∨ v ∉ (descend t p).values) := by
  intro p
  induction p with
  | nil =>
    intro t v
    cases t with
    | nil => simp [removeAux, descend, treenode.isNil]
    | mk vs l r =>
      by_cases hv : v ∈ vs <;>
        simp [removeAux, descend, treenode.isNil, treenode.values, hv]
  | cons b rest ih =>
    intro t v
    cases t with
    | nil =>
      cases b <;> simp [removeAux, descend_nil, descend, treenode.isNil,
        treenode.left, treenode.right]
    | mk vs l r =>
      cases b
      · have hd : descend (treenode.mk vs l r) (false :: rest) = descend l rest := rfl
        have hiff : removeAux (treenode.mk vs l r) (false :: rest) v = none ↔
            removeAux l rest v = none := by
          cases hr : removeAux l rest v <;> simp [removeAux, hr]
        rw [hd, hiff]
        exact ih l v
      · have hd : descend (treenode.mk vs l r) (true :: rest) = descend r rest := rfl
        have hiff : removeAux (treenode.mk vs l r) (true :: rest) v = none ↔
            removeAux r rest v = none := by
          cases hr : removeAux r rest v <;> simp [removeAux, hr]
        rw [hd, hiff]
        exact ih r v

lemma removeAux_some_leaf : ∀ (p : List Bool) (t : treenode) (v : Nat) (c : treenode),
    removeAux t p v = some c →
      v ∈ (descend t p).values
      ∧ (descend c p).values = swap_pop (descend t p).values v := by
  intro p
  induction p with
  | nil =>
    intro t v c h
    cases t with
    | nil => cases h
    | mk vs l r =>
      by_cases hv : v ∈ vs
      · rw [show removeAux (treenode.mk vs l r) [] v =
            (if v ∈ vs then
              some (if (swap_pop vs v).isEmpty && l.isNil && r.isNil then .nil
                else .mk (swap_pop vs v) l r)
            else none) from rfl, if_pos hv] at h
        injection h with h2
        subst h2
        refine ⟨hv, ?_⟩
        split
        · rename_i hdead
          simp only [Bool.and_eq_true, List.isEmpty_iff] at hdead
        
          simp [descend, treenode.values, hdead.1.1]
        · rfl
      · rw [show removeAux (treenode.mk vs l r) [] v =
            (if v ∈ vs then
              some (if (swap_pop vs v).isEmpty && l.isNil && r.isNil then .nil
                else .mk (swap_pop vs v) l r)
            else none) from rfl, if_neg hv] at h
        cases h
  | cons b rest ih =>
    intro t v c h
    cases t with
    | nil => cases h
    | mk vs l r =>
      cases b
      · cases hr : removeAux l rest v with
        | none => rw [show removeAux (treenode.mk vs l r) (false :: rest) v =
              (match removeAux l rest v with
                | none => none
                | some c0 => some (if c0.isNil && vs.isEmpty && r.isNil then .nil
                    else .mk vs c0 r)) from rfl, hr] at h; cases h
        | some c0 =>
          rw [show removeAux (treenode.mk vs l r) (false :: rest) v =
              (match removeAux l rest v with
                | none => none
                | some c0 => some (if c0.isNil && vs.isEmpty && r.isNil then .nil
                    else .mk vs c0 r)) from rfl, hr] at h
          injection h with h2
          subst h2
          obtain ⟨hmem, hvals⟩ := ih l v c0 hr
          refine ⟨hmem, ?_⟩
          split
          · rename_i hdead
            simp only [Bool.and_eq_true] at hdead
            have hc0 : c0 = .nil := isNil_eq c0 hdead.1.1
            subst hc0
            rw [descend_nil] at hvals
            rw [show descend treenode.nil (false :: rest) = treenode.nil from descend_nil _]
            exact hvals
          · exact hvals
      · cases hr : removeAux r rest v with
        | none => rw [show removeAux (treenode.mk vs l r) (true :: rest) v =
              (match removeAux r rest v with
                | none => none
                | some c0 => some (if c0.isNil && vs.isEmpty && l.isNil then .nil
                    else .mk vs l c0)) from rfl, hr] at h; cases h
        | some c0 =>
          rw [show removeAux (treenode.mk vs l r) (true :: rest) v =
              (match removeAux r rest v with
                | none => none
                | some c0 => some (if c0.isNil && vs.isEmpty && l.isNil then .nil
                    else .mk vs l c0)) from rfl, hr] at h
          injection h with h2
          subst h2
          obtain ⟨hmem, hvals⟩ := ih r v c0 hr
          refine ⟨hmem, ?_⟩
          split
          · rename_i hdead
            simp only [Bool.and_eq_true] at hdead
            have hc0 : c0 = .nil := isNil_eq c0 hdead.1.1
            subst hc0
            rw [descend_nil] at hvals
            rw [show descend treenode.nil (true :: rest) = treenode.nil from descend_nil _]
            exact hvals
          · exact hvals

lemma removeAux_some_entries : ∀ (p : List Bool) (t : treenode) (v : Nat) (c : treenode),
    removeAux t p v = some c → (((p, v) :: c.entries).Perm t.entries) := by
  intro p
  induction p with
  | nil =>
    intro t v c h
    cases t with
    | nil => cases h
    | mk vs l r =>
      by_cases hv : v ∈ vs
      · rw [show removeAux (treenode.mk vs l r) [] v =
            (if v ∈ vs then
              some (if (swap_pop vs v).isEmpty && l.isNil && r.isNil then .nil
                else .mk (swap_pop vs v) l r)
            else none) from rfl, if_pos hv] at h
        injection h with h2
        subst h2
        have hvs : (v :: swap_pop vs v).Perm vs :=
          ((swap_pop_perm vs v hv).cons v).trans (List.perm_cons_erase hv).symm
        split
        · rename_i hdead
          simp only [Bool.and_eq_true, List.isEmpty_iff] at hdead
          obtain ⟨⟨hsp, hl⟩, hr⟩ := hdead
          rw [isNil_eq l hl, isNil_eq r hr, entries_mk]
          rw [hsp] at hvs
          have hthis := hvs.map (fun w => (([] : List Bool), w))
          simp only [treenode.entries, List.map_nil, List.map_cons,
            List.append_nil, List.nil_append] at hthis ⊢
          exact hthis
        · rw [entries_mk, entries_mk]
          have hmap := hvs.map (fun w => (([] : List Bool), w))
          simp only [List.map_cons] at hmap
          simp only [List.append_assoc]
          have := hmap.append_right (l.entries.map (fun e => ((false :: e.1 : List Bool), e.2))
            ++ r.entries.map (fun e => ((true :: e.1 : List Bool), e.2)))
          simpa using this
      · rw [show removeAux (treenode.mk vs l r) [] v =
            (if v ∈ vs then
              some (if (swap_pop vs v).isEmpty && l.isNil && r.isNil then .nil
                else .mk (swap_pop vs v) l r)
            else none) from rfl, if_neg hv] at h
        cases h
  | cons b rest ih =>
    intro t v c h
    cases t with
    | nil => cases h
    | mk vs l r =>
      cases b
      · cases hr : removeAux l rest v with
        | none => rw [show removeAux (treenode.mk vs l r) (false :: rest) v =
              (match removeAux l rest v with
                | none => none
                | some c0 => some (if c0.isNil && vs.isEmpty && r.isNil then .nil
                    else .mk vs c0 r)) from rfl, hr] at h; cases h
        | some c0 =>
          rw [show removeAux (treenode.mk vs l r) (false :: rest) v =
              (match removeAux l rest v with
                | none => none
                | some c0 => some (if c0.isNil && vs.isEmpty && r.isNil then .nil
                    else .mk vs c0 r)) from rfl, hr] at h
          injection h with h2
          subst h2
          have hperm := (ih l v c0 hr).map (fun e => ((false :: e.1 : List Bool), e.2))
          simp only [List.map_cons] at hperm
          split
          · rename_i hdead
            simp only [Bool.and_eq_true, List.isEmpty_iff] at hdead
            obtain ⟨⟨hc0, hvs0⟩, hr0⟩ := hdead
            rw [isNil_eq c0 hc0] at hperm
            rw [entries_mk, hvs0, isNil_eq r hr0]
            simp only [treenode.entries, List.map_nil, List.append_nil,
              List.nil_append] at hperm ⊢
            exact hperm
          · rw [entries_mk, entries_mk]
            simp only [List.append_assoc]
            refine (List.perm_middle.symm.trans ?_)
            refine (List.Perm.append_left _ ?_)
            simp only [← List.cons_append]
            exact hperm.append_right _
      · cases hr : removeAux r rest v with
        | none => rw [show removeAux (treenode.mk vs l r) (true :: rest) v =
              (match removeAux r rest v with
                | none => none
                | some c0 => some (if c0.isNil && vs.isEmpty && l.isNil then .nil
                    else .mk vs l c0)) from rfl, hr] at h; cases h
        | some c0 =>
          rw [show removeAux (treenode.mk vs l r) (true :: rest) v =
              (match removeAux r rest v with
                | none => none
                | some c0 => some (if c0.isNil && vs.isEmpty && l.isNil then .nil
                    else .mk vs l c0)) from rfl, hr] at h
          injection h with h2
          subst h2
          have hperm := (ih r v c0 hr).map (fun e => ((true :: e.1 : List Bool), e.2))
          simp only [List.map_cons] at hperm
          split
          · rename_i hdead
            simp only [Bool.and_eq_true, List.isEmpty_iff] at hdead
            obtain ⟨⟨hc0, hvs0⟩, hl0⟩ := hdead
            rw [isNil_eq c0 hc0] at hperm
            rw [entries_mk, hvs0, isNil_eq l hl0]
            simp only [treenode.entries, List.map_nil, List.append_nil,
              List.nil_append] at hperm ⊢
            exact hperm
          · rw [entries_mk, entries_mk]
            simp only [List.append_assoc]
            have hstep : ((true :: rest, v) :: (vs.map (fun w => (([] : List Bool), w))
                ++ (l.entries.map (fun e => ((false :: e.1 : List Bool), e.2))
                  ++ c0.entries.map (fun e => ((true :: e.1 : List Bool), e.2))))).Perm
                (vs.map (fun w => (([] : List Bool), w))
                  ++ (l.entries.map (fun e => ((false :: e.1 : List Bool), e.2))
                    ++ ((true :: rest, v) :: c0.entries.map
                      (fun e => ((true :: e.1 : List Bool), e.2))))) := by
              refine (List.perm_middle.symm.trans ?_)
              refine List.Perm.append_left _ ?_
              exact List.perm_middle.symm
            exact hstep.trans
              ((List.Perm.append_left _ (List.Perm.append_left _ hperm)))

lemma stepLevel_nil (b : Bool) : stepLevel b [] = [] := rfl

lemma runLevels_nil_frontier : ∀ q : List Bool, runLevels q [] = [] := by
  intro q
  induction q with
  | nil => rfl
  | cons b rest ih =>
    show runLevels rest (stepLevel b []) = []
    rw [stepLevel_nil]
    exact ih

lemma stepLevel_append (b : Bool) (xs ys : List treenode) :
    stepLevel b (xs ++ ys) = stepLevel b xs ++ stepLevel b ys := by
  unfold stepLevel
  exact List.flatMap_append xs ys _

lemma runLevels_append : ∀ (q : List Bool) (xs ys : List treenode),
    runLevels q (xs ++ ys) = runLevels q xs ++ runLevels q ys := by
  intro q
  induction q with
  | nil => intro xs ys; rfl
  | cons b rest ih =>
    intro xs ys
    show runLevels rest (stepLevel b (xs ++ ys)) = _
    rw [stepLevel_append, ih]
    rfl

lemma filter_const_false {α : Type} (l : List α) : l.filter (fun _ => false) = [] := by
  induction l with
  | nil => rfl
  | cons a t ih => simp [List.filter_cons, ih]

lemma comp_cons_false (q : List Bool) (b : Bool) :
    ((fun (e : List Bool × Nat) => bitsLe e.1 (b :: q)) ∘
      (fun (e : List Bool × Nat) => ((false :: e.1 : List Bool), e.2))) =
    (fun (e : List Bool × Nat) => bitsLe e.1 q) := by
  funext e
  show bitsLe (false :: e.1) (b :: q) = bitsLe e.1 q
  show ((!false || b) && bitsLe e.1 q) = bitsLe e.1 q
  cases b <;> rfl

lemma comp_cons_true_true (q : List Bool) :
    ((fun (e : List Bool × Nat) => bitsLe e.1 (true :: q)) ∘
      (fun (e : List Bool × Nat) => ((true :: e.1 : List Bool), e.2))) =
    (fun (e : List Bool × Nat) => bitsLe e.1 q) := by
  funext e
  show bitsLe (true :: e.1) (true :: q) = bitsLe e.1 q
  show ((!true || true) && bitsLe e.1 q) = bitsLe e.1 q
  rfl

lemma comp_cons_true_false (q : List Bool) :
    ((fun (e : List Bool × Nat) => bitsLe e.1 (false :: q)) ∘
      (fun (e : List Bool × Nat) => ((true :: e.1 : List Bool), e.2))) =
    (fun (_ : List Bool × Nat) => false) := by
  funext e
  show bitsLe (true :: e.1) (false :: q) = false
  show ((!true || false) && bitsLe e.1 q) = false
  rfl

lemma comp_nil_filter (q : List Bool) (b : Bool) :
    ((fun (e : List Bool × Nat) => bitsLe e.1 (b :: q)) ∘
      (fun (v : Nat) => (([] : List Bool), v))) = (fun (_ : Nat) => false) := by
  funext v
  show bitsLe [] (b :: q) = false
  rfl

lemma snd_comp_consF :
    (Prod.snd ∘ fun (e : List Bool × Nat) => ((false :: e.1 : List Bool), e.2)) =
      (Prod.snd : List Bool × Nat → Nat) := rfl

lemma snd_comp_consT :
    (Prod.snd ∘ fun (e : List Bool × Nat) => ((true :: e.1 : List Bool), e.2)) =
      (Prod.snd : List Bool × Nat → Nat) := rfl

lemma find_subsets_entries : ∀ (q : List Bool) (t : treenode),
    (runLevels q [t]).flatMap treenode.values =
      ((t.entries.filter (fun e => bitsLe e.1 q)).map Prod.snd) := by
  intro q
  induction q with
  | nil =>
    intro t
    show ([t].flatMap treenode.values) = _
    rw [entries_decomp t]
    simp only [List.flatMap_cons, List.flatMap_nil, List.append_nil,
      List.filter_append, List.map_append, List.filter_map]
    have h1 : (List.filter ((fun (e : List Bool × Nat) => bitsLe e.1 []) ∘
        fun v => (([] : List Bool), v)) t.values) = t.values :=
      List.filter_eq_self.mpr (fun a _ => rfl)
    have h2 : (List.filter ((fun (e : List Bool × Nat) => bitsLe e.1 []) ∘
        fun e => ((false :: e.1 : List Bool), e.2)) t.left.entries) = [] :=
      List.filter_eq_nil_iff.mpr (fun a _ => by simp [Function.comp, bitsLe])
    have h3 : (List.filter ((fun (e : List Bool × Nat) => bitsLe e.1 []) ∘
        fun e => ((true :: e.1 : List Bool), e.2)) t.right.entries) = [] :=
      List.filter_eq_nil_iff.mpr (fun a _ => by simp [Function.comp, bitsLe])
    rw [h1, h2, h3]
    simp [List.map_map]
  | cons b rest ih =>
    intro t
    cases t with
    | nil =>
      show (runLevels rest (stepLevel b [.nil])).flatMap treenode.values = _
      have hstep : stepLevel b [(.nil : treenode)] = [] := by cases b <;> rfl
      rw [hstep, runLevels_nil_frontier]
      rfl
    | mk vs l r =>
      have hleft : (runLevels rest (if l.isNil then [] else [l])).flatMap treenode.values =
          ((l.entries.filter (fun e => bitsLe e.1 rest)).map Prod.snd) := by
        cases l with
        | nil =>
          rw [if_pos (show (treenode.nil.isNil = true) from rfl), runLevels_nil_frontier]
          rfl
        | mk lv ll lr =>
          rw [if_neg (show ¬((treenode.mk lv ll lr).isNil = true) from by
            simp [treenode.isNil])]
          exact ih _
      have hright : (runLevels rest (if r.isNil then [] else [r])).flatMap treenode.values =
          ((r.entries.filter (fun e => bitsLe e.1 rest)).map Prod.snd) := by
        cases r with
        | nil =>
          rw [if_pos (show (treenode.nil.isNil = true) from rfl), runLevels_nil_frontier]
          rfl
        | mk rv rl rr =>
          rw [if_neg (show ¬((treenode.mk rv rl rr).isNil = true) from by
            simp [treenode.isNil])]
          exact ih _
      rw [entries_mk]
      simp only [List.filter_append, List.map_append, List.filter_map]
      cases b
      · show (runLevels rest (stepLevel false [treenode.mk vs l r])).flatMap
            treenode.values = _
        have hstep : stepLevel false [treenode.mk vs l r] =
            (if l.isNil then [] else [l]) := by
          simp [stepLevel, treenode.left]
        rw [hstep, comp_nil_filter rest false, comp_cons_false rest false,
          comp_cons_true_false rest]
        rw [filter_const_false, filter_const_false]
        simp only [List.map_nil, List.nil_append, List.append_nil, List.map_map]
        rw [snd_comp_consF]
        exact hleft
      · show (runLevels rest (stepLevel true [treenode.mk vs l r])).flatMap
            treenode.values = _
        have hstep : stepLevel true [treenode.mk vs l r] =
            (if l.isNil then [] else [l]) ++ (if r.isNil then [] else [r]) := by
          simp [stepLevel, treenode.left, treenode.right]
        rw [hstep, runLevels_append, List.flatMap_append, hleft, hright]
        rw [comp_nil_filter rest true, comp_cons_false rest true, comp_cons_true_true rest]
        rw [filter_const_false]
        simp only [List.map_nil, List.nil_append, List.map_map]
        rw [snd_comp_consF, snd_comp_consT]

lemma mem_entries_iff : ∀ (p : List Bool) (t : treenode) (v : Nat),
    ((p, v) ∈ t.entries) ↔
      ((descend t p).isNil = false ∧ v ∈ (descend t p).values) := by
  intro p
  induction p with
  | nil =>
    intro t v
    cases t with
    | nil => simp [treenode.entries, descend, treenode.isNil]
    | mk vs l r =>
      show ((([] : List Bool), v) ∈ (treenode.mk vs l r).entries) ↔ _
      rw [entries_mk]
      simp [descend, treenode.isNil, treenode.values, List.mem_append, List.mem_map]
  | cons b rest ih =>
    intro t v
    cases t with
    | nil => simp [treenode.entries, descend_nil, treenode.isNil]
    | mk vs l r =>
      rw [entries_mk]
      cases b
      · have hd : descend (treenode.mk vs l r) (false :: rest) = descend l rest := rfl
        rw [hd, ← ih l v]
        simp [List.mem_append, List.mem_map]
      · have hd : descend (treenode.mk vs l r) (true :: rest) = descend r rest := rfl
        rw [hd, ← ih r v]
        simp [List.mem_append, List.mem_map]

lemma removeAux_none_iff_mem (p : List Bool) (t : treenode) (v : Nat) :
    removeAux t p v = none ↔ (p, v) ∉ t.entries := by
  rw [removeAux_none_iff, mem_entries_iff]
  cases h : (descend t p).isNil <;> simp [h]

lemma erase_inst_eq : ∀ (M : List (List Bool × Nat)) (x : List Bool × Nat),
    @List.erase _ instBEqOfDecidableEq M x = M.erase x := by
  intro M x
  induction M with
  | nil => rfl
  | cons a as ih =>
    have hb : (@BEq.beq _ instBEqOfDecidableEq a x) = (a == x) := by
      show decide (a = x) = (a == x)
      by_cases h : a = x
      · subst h; simp
      · simp [h]
    show (match @BEq.beq _ instBEqOfDecidableEq a x with
        | true => as
        | false => a :: @List.erase _ instBEqOfDecidableEq as x) = _
    rw [hb, ih]
    rfl

lemma runOp_step (c : Nat) (s : bs_searcher) (op : bs_op) (M : List (List Bool × Nat))
    (hcap : s.capacity_ = c) (hperm : s.root_.entries.Perm M) :
    (runOp s op).capacity_ = c ∧ (runOp s op).root_.entries.Perm (modelOp c M op) := by
  cases op with
  | addOp v bs =>
    simp only [runOp, bs_searcher.add, modelOp]
    by_cases hbc : bs.capacity_ = c
    · rw [if_neg (show ¬(s.capacity_ ≠ bs.capacity_) from by omega), if_pos hbc]
      refine ⟨hcap, ?_⟩
      refine (addPath_entries _ _ _).trans ?_
      exact (hperm.cons _).trans (List.perm_append_singleton _ _).symm
    · rw [if_pos (show s.capacity_ ≠ bs.capacity_ from by omega), if_neg hbc]
      exact ⟨hcap, hperm⟩
  | removeOp v bs =>
    simp only [runOp, bs_searcher.remove, modelOp]
    by_cases hbc : bs.capacity_ = c
    · rw [if_neg (show ¬(s.capacity_ ≠ bs.capacity_) from by omega), if_pos hbc]
      cases hr : removeAux s.root_ (bitsOf bs) v with
      | none =>
        refine ⟨hcap, ?_⟩
        have hnot : (bitsOf bs, v) ∉ s.root_.entries :=
          (removeAux_none_iff_mem _ _ _).mp hr
        have hnotM : (bitsOf bs, v) ∉ M := fun hmem => hnot (hperm.mem_iff.mpr hmem)
        rw [List.erase_of_not_mem hnotM]
        exact hperm
      | some c0 =>
        refine ⟨hcap, ?_⟩
        have hperm2 := removeAux_some_entries _ _ _ _ hr
        have h3 : c0.entries.Perm (M.erase (bitsOf bs, v)) := by
          have h4 := (hperm2.trans hperm).erase (bitsOf bs, v)
          rw [erase_inst_eq, erase_inst_eq, List.erase_cons_head] at h4
          exact h4
        have hroot : ({ s with root_ := if c0.isNil then treenode.new else c0 } :
            bs_searcher).root_.entries = c0.entries := by
          cases c0 <;> rfl
        rw [hroot]
        exact h3
    · rw [if_pos (show s.capacity_ ≠ bs.capacity_ from by omega), if_neg hbc]
      exact ⟨hcap, hperm⟩

lemma runOps_invariant (c : Nat) : ∀ (ops : List bs_op) (s : bs_searcher)
    (M : List (List Bool × Nat)), s.capacity_ = c → s.root_.entries.Perm M →
    (runOps s ops).capacity_ = c
    ∧ (runOps s ops).root_.entries.Perm (ops.foldl (modelOp c) M) := by
  intro ops
  induction ops with
  | nil => intro s M h1 h2; exact ⟨h1, h2⟩
  | cons op rest ih =>
    intro s M h1 h2
    have hstep := runOp_step c s op M h1 h2
    exact ih (runOp s op) (modelOp c M op) hstep.1 hstep.2

lemma allAlive_children (t : treenode) (h : t.allAlive = true) :
    t.left.allAlive = true ∧ t.right.allAlive = true := by
  cases t with
  | nil => exact ⟨rfl, rfl⟩
  | mk vs l r =>
    simp only [treenode.allAlive, Bool.and_eq_true] at h
    exact ⟨h.1.2, h.2⟩

lemma addPath_ne_nil : ∀ (p : List Bool) (t : treenode) (v : Nat),
    (addPath t p v).isNil = false := by
  intro p t v
  cases p with
  | nil => rfl
  | cons b rest => cases b <;> rfl

lemma addPath_allAlive : ∀ (p : List Bool) (t : treenode) (v : Nat),
    t.left.allAlive = true → t.right.allAlive = true →
    (addPath t p v).allAlive = true := by
  intro p
  induction p with
  | nil =>
    intro t v hl hr
    show (treenode.mk (t.values ++ [v]) t.left t.right).allAlive = true
    simp [treenode.allAlive, hl, hr]
  | cons b rest ih =>
    intro t v hl hr
    cases b
    · show (treenode.mk t.values (addPath t.left rest v) t.right).allAlive = true
      have h1 := ih t.left v (allAlive_children _ hl).1 (allAlive_children _ hl).2
      simp [treenode.allAlive, h1, hr, addPath_ne_nil]
    · show (treenode.mk t.values t.left (addPath t.right rest v)).allAlive = true
      have h1 := ih t.right v (allAlive_children _ hr).1 (allAlive_children _ hr).2
      simp [treenode.allAlive, h1, hl, addPath_ne_nil]

lemma removeAux_allAlive : ∀ (p : List Bool) (t : treenode) (v : Nat) (c : treenode),
    removeAux t p v = some c → t.left.allAlive = true → t.right.allAlive = true →
    c.allAlive = true := by
  intro p
  induction p with
  | nil =>
    intro t v c hsome hl hr
    cases t with
    | nil => cases hsome
    | mk vs l r =>
      simp only [removeAux] at hsome
      by_cases hv : v ∈ vs
      · rw [if_pos hv] at hsome
        have hc := (Option.some.injEq _ _).mp hsome
        subst hc
        by_cases hdead : ((swap_pop vs v).isEmpty && l.isNil && r.isNil) = true
        · rw [if_pos hdead]; rfl
        · rw [if_neg hdead]
          show (!((swap_pop vs v).isEmpty && l.isNil && r.isNil)
            && l.allAlive && r.allAlive) = true
          simp only [treenode.left, treenode.right] at hl hr
          simp [hdead, hl, hr]
      · rw [if_neg hv] at hsome; cases hsome
  | cons b rest ih =>
    intro t v c hsome hl hr
    cases t with
    | nil => cases hsome
    | mk vs l r =>
      simp only [treenode.left, treenode.right] at hl hr
      cases b
      · simp only [removeAux] at hsome
        cases hr0 : removeAux l rest v with
        | none => rw [hr0] at hsome; cases hsome
        | some c0 =>
          rw [hr0] at hsome
          have hc := (Option.some.injEq _ _).mp hsome
          subst hc
          have hc0 := ih l v c0 hr0 (allAlive_children _ hl).1 (allAlive_children _ hl).2
          by_cases hdead : (c0.isNil && vs.isEmpty && r.isNil) = true
          · rw [if_pos hdead]; rfl
          · rw [if_neg hdead]
            show (!(vs.isEmpty && c0.isNil && r.isNil) && c0.allAlive && r.allAlive) = true
            simp only [Bool.and_eq_true, not_and] at hdead ⊢
            simp only [Bool.not_eq_true'] at hdead ⊢
            refine ⟨⟨?_, hc0⟩, hr⟩
            cases h1 : c0.isNil <;> cases h2 : vs.isEmpty <;> cases h3 : r.isNil <;>
              simp_all
      · simp only [removeAux] at hsome
        cases hr0 : removeAux r rest v with
        | none => rw [hr0] at hsome; cases hsome
        | some c0 =>
          rw [hr0] at hsome
          have hc := (Option.some.injEq _ _).mp hsome
          subst hc
          have hc0 := ih r v c0 hr0 (allAlive_children _ hr).1 (allAlive_children _ hr).2
          by_cases hdead : (c0.isNil && vs.isEmpty && l.isNil) = true
          · rw [if_pos hdead]; rfl
          · rw [if_neg hdead]
            show (!(vs.isEmpty && l.isNil && c0.isNil) && l.allAlive && c0.allAlive) = true
            simp only [Bool.and_eq_true, not_and] at hdead ⊢
            simp only [Bool.not_eq_true'] at hdead ⊢
            refine ⟨⟨?_, hl⟩, hc0⟩
            cases h1 : c0.isNil <;> cases h2 : vs.isEmpty <;> cases h3 : l.isNil <;>
              simp_all

lemma addPath_root_children (p : List Bool) (t : treenode) (v : Nat)
    (hl : t.left.allAlive = true) (hr : t.right.allAlive = true) :
    (addPath t p v).left.allAlive = true ∧ (addPath t p v).right.allAlive = true := by
  cases p with
  | nil => exact ⟨hl, hr⟩
  | cons b rest =>
    cases b
    · refine ⟨?_, hr⟩
      show (addPath t.left rest v).allAlive = true
      exact addPath_allAlive rest t.left v (allAlive_children _ hl).1 (allAlive_children _ hl).2
    · refine ⟨hl, ?_⟩
      show (addPath t.right rest v).allAlive = true
      exact addPath_allAlive rest t.right v (allAlive_children _ hr).1 (allAlive_children _ hr).2

lemma runOp_allAlive (s : bs_searcher) (op : bs_op)
    (hl : s.root_.left.allAlive = true) (hr : s.root_.right.allAlive = true) :
    (runOp s op).root_.left.allAlive = true
    ∧ (runOp s op).root_.right.allAlive = true := by
  cases op with
  | addOp v bs =>
    simp only [runOp, bs_searcher.add]
    by_cases hc : s.capacity_ ≠ bs.capacity_
    · rw [if_pos hc]; exact ⟨hl, hr⟩
    · rw [if_neg hc]
      exact addPath_root_children (bitsOf bs) s.root_ v hl hr
  | removeOp v bs =>
    simp only [runOp, bs_searcher.remove]
    by_cases hc : s.capacity_ ≠ bs.capacity_
    · rw [if_pos hc]; exact ⟨hl, hr⟩
    · rw [if_neg hc]
      cases hr0 : removeAux s.root_ (bitsOf bs) v with
      | none => exact ⟨hl, hr⟩
      | some c0 =>
        have hc0 := removeAux_allAlive (bitsOf bs) s.root_ v c0 hr0 hl hr
        cases c0 with
        | nil => exact ⟨rfl, rfl⟩
        | mk vs l r =>
          exact ⟨(allAlive_children _ hc0).1, (allAlive_children _ hc0).2⟩

lemma runOps_allAlive : ∀ (ops : List bs_op) (s : bs_searcher),
    s.root_.left.allAlive = true → s.root_.right.allAlive = true →
    (runOps s ops).root_.left.allAlive = true
    ∧ (runOps s ops).root_.right.allAlive = true := by
  intro ops
  induction ops with
  | nil => intro s hl hr; exact ⟨hl, hr⟩
  | cons op rest ih =>
    intro s hl hr
    have hstep := runOp_allAlive s op hl hr
    exact ih (runOp s op) hstep.1 hstep.2

/-! ### Claims about `bs_searcher` -/

/-- **C1**: for every sequence of add/remove operations building a fresh
`bs_searcher` of capacity `c` and every query set `q` of capacity `c`,
`find_subsets q` succeeds and returns exactly the multiset (the returned
list up to permutation: no ordering guarantee) of values `v` currently
stored with some bit pattern that is a subset of `q`'s pattern, per the
reference model tracking each insertion and first-match removal. -/
theorem C1_find_subsets (c : Nat) (ops : List bs_op) (q : binary_set)
    (hq : q.capacity_ = c) :
    ∃ out, (runOps (bs_searcher.init c) ops).find_subsets q = .ok out
      ∧ out.Perm (((modelOf c ops).filter
          (fun e => bitsLe e.1 (bitsOf q))).map Prod.snd) := by
  obtain ⟨hcap, hperm⟩ := runOps_invariant c ops (bs_searcher.init c) []
    rfl (List.Perm.refl [])
  have hfs : (runOps (bs_searcher.init c) ops).find_subsets q
      = .ok ((runLevels (bitsOf q)
          [(runOps (bs_searcher.init c) ops).root_]).flatMap treenode.values) := by
    unfold bs_searcher.find_subsets
    rw [if_neg (show ¬((runOps (bs_searcher.init c) ops).capacity_ ≠ q.capacity_)
      from by omega)]
  refine ⟨_, hfs, ?_⟩
  rw [find_subsets_entries]
  exact (hperm.filter _).map _

/-- Witness for C1: three inserts (value 7 twice at pattern `[true]`,
value 9 at pattern `[false]`) and one removal of 7, queried with the full
capacity-1 set. -/
theorem C1_find_subsets_witness :
    (⟨1, 1, [1]⟩ : binary_set).capacity_ = 1
    ∧ ∃ out,
        (runOps (bs_searcher.init 1)
          [.addOp 7 ⟨1, 1, [1]⟩, .addOp 9 ⟨1, 0, [0]⟩, .addOp 7 ⟨1, 1, [1]⟩,
           .removeOp 7 ⟨1, 1, [1]⟩]).find_subsets ⟨1, 1, [1]⟩ = .ok out
        ∧ out.Perm (((modelOf 1
            [.addOp 7 ⟨1, 1, [1]⟩, .addOp 9 ⟨1, 0, [0]⟩, .addOp 7 ⟨1, 1, [1]⟩,
             .removeOp 7 ⟨1, 1, [1]⟩]).filter
              (fun e => bitsLe e.1 (bitsOf ⟨1, 1, [1]⟩))).map Prod.snd) :=
  ⟨rfl, C1_find_subsets 1
    [.addOp 7 ⟨1, 1, [1]⟩, .addOp 9 ⟨1, 0, [0]⟩, .addOp 7 ⟨1, 1, [1]⟩,
     .removeOp 7 ⟨1, 1, [1]⟩] ⟨1, 1, [1]⟩ rfl⟩

/-- **C2**: after every sequence of `bs_searcher` add and remove
operations on a fresh index, every trie node reachable from the root
other than the root itself is alive — no reachable node has an empty
value list together with two null children (the pruning invariant); only
the root may be empty. -/
theorem C2_pruning_invariant (c : Nat) (ops : List bs_op) :
    (runOps (bs_searcher.init c) ops).root_.left.allAlive = true
    ∧ (runOps (bs_searcher.init c) ops).root_.right.allAlive = true :=
  runOps_allAlive ops (bs_searcher.init c) rfl rfl

lemma values_nil_of_isNil (t : treenode) (h : t.isNil = true) : t.values = [] := by
  cases t with
  | nil => rfl
  | mk vs l r => cases h

lemma descend_new_values : ∀ (p : List Bool), (descend treenode.new p).values = [] := by
  intro p
  cases p with
  | nil => rfl
  | cons b rest =>
    cases b
    · show (descend treenode.nil rest).values = []
      rw [descend_nil]; rfl
    · show (descend treenode.nil rest).values = []
      rw [descend_nil]; rfl

/-- **C3**: for every `bs_searcher` and every (value, set) pair of
matching capacity, `remove` succeeds, returning `false` exactly when the
descent path does not fully resolve (a required child is missing, i.e.
the descent ends on a null node) or the terminal node's value list has no
entry equal to `value`; otherwise it returns `true` and removes exactly
one entry at the terminal node — the first matching entry, by the
swap-with-last removal — so the value's multiplicity at that leaf drops
by exactly one and the stored multiset loses one `(pattern, value)`
pair. -/
theorem C3_remove_semantics (s : bs_searcher) (v : Nat) (bs : binary_set)
    (hcap : s.capacity_ = bs.capacity_) :
    ∃ s' found, s.remove v bs = (s', .ok found)
    ∧ (found = false ↔ ((descend s.root_ (bitsOf bs)).isNil = true
        ∨ v ∉ (descend s.root_ (bitsOf bs)).values))
    ∧ (found = true →
        v ∈ (descend s.root_ (bitsOf bs)).values
        ∧ (descend s'.root_ (bitsOf bs)).values
            = swap_pop (descend s.root_ (bitsOf bs)).values v
        ∧ (descend s'.root_ (bitsOf bs)).values.count v + 1
            = (descend s.root_ (bitsOf bs)).values.count v
        ∧ s'.root_.entries.Perm (s.root_.entries.erase (bitsOf bs, v))) := by
  have hnc : ¬(s.capacity_ ≠ bs.capacity_) := by omega
  cases hr : removeAux s.root_ (bitsOf bs) v with
  | none =>
    refine ⟨s, false, ?_, ?_, ?_⟩
    · unfold bs_searcher.remove
      rw [if_neg hnc, hr]
    · exact iff_of_true rfl ((removeAux_none_iff _ _ _).mp hr)
    · intro hft; exact absurd hft (by simp)
  | some c0 =>
    obtain ⟨hmem, hleaf⟩ := removeAux_some_leaf (bitsOf bs) s.root_ v c0 hr
    have hent := removeAux_some_entries (bitsOf bs) s.root_ v c0 hr
    refine ⟨{ s with root_ := if c0.isNil then treenode.new else c0 }, true, ?_, ?_, ?_⟩
    · unfold bs_searcher.remove
      rw [if_neg hnc, hr]
    · refine iff_of_false (by simp) ?_
      rintro (hnil | hnm)
      · rw [values_nil_of_isNil _ hnil] at hmem; cases hmem
      · exact hnm hmem
    · intro _
      have hvals : (descend ({ s with root_ := if c0.isNil then treenode.new else c0 } :
          bs_searcher).root_ (bitsOf bs)).values
          = swap_pop (descend s.root_ (bitsOf bs)).values v := by
        cases c0 with
        | nil =>
          rw [descend_nil] at hleaf
          show (descend treenode.new (bitsOf bs)).values = _
          rw [descend_new_values]
          exact hleaf
        | mk vs2 l2 r2 => exact hleaf
      refine ⟨hmem, hvals, ?_, ?_⟩
      · rw [hvals]
        exact swap_pop_count_self _ v hmem
      · have hroot2 : ({ s with root_ := if c0.isNil then treenode.new else c0 } :
            bs_searcher).root_.entries = c0.entries := by
          cases c0 <;> rfl
        rw [hroot2]
        have h4 := hent.symm.erase (bitsOf bs, v)
        rw [erase_inst_eq, erase_inst_eq, List.erase_cons_head] at h4
        exact h4.symm

/-- Witness for C3: removing value 5 stored twice at pattern `[true]` in a
capacity-1 index; the removal succeeds and leaves one copy. -/
theorem C3_remove_semantics_witness :
    (⟨treenode.mk [] .nil (treenode.mk [5, 7, 5] .nil .nil), 1⟩ :
        bs_searcher).capacity_ = (⟨1, 1, [1]⟩ : binary_set).capacity_
    ∧ ∃ s' found,
      (⟨treenode.mk [] .nil (treenode.mk [5, 7, 5] .nil .nil), 1⟩ :
          bs_searcher).remove 5 ⟨1, 1, [1]⟩ = (s', .ok found)
      ∧ (found = false ↔
          ((descend (⟨treenode.mk [] .nil (treenode.mk [5, 7, 5] .nil .nil), 1⟩ :
              bs_searcher).root_ (bitsOf ⟨1, 1, [1]⟩)).isNil = true
            ∨ 5 ∉ (descend (⟨treenode.mk [] .nil (treenode.mk [5, 7, 5] .nil .nil), 1⟩ :
              bs_searcher).root_ (bitsOf ⟨1, 1, [1]⟩)).values))
      ∧ (found = true →
          5 ∈ (descend (⟨treenode.mk [] .nil (treenode.mk [5, 7, 5] .nil .nil), 1⟩ :
              bs_searcher).root_ (bitsOf ⟨1, 1, [1]⟩)).values
          ∧ (descend s'.root_ (bitsOf ⟨1, 1, [1]⟩)).values
              = swap_pop (descend (⟨treenode.mk [] .nil
                  (treenode.mk [5, 7, 5] .nil .nil), 1⟩ :
                bs_searcher).root_ (bitsOf ⟨1, 1, [1]⟩)).values 5
          ∧ (descend s'.root_ (bitsOf ⟨1, 1, [1]⟩)).values.count 5 + 1
              = (descend (⟨treenode.mk [] .nil (treenode.mk [5, 7, 5] .nil .nil), 1⟩ :
                bs_searcher).root_ (bitsOf ⟨1, 1, [1]⟩)).values.count 5
          ∧ s'.root_.entries.Perm
              ((⟨treenode.mk [] .nil (treenode.mk [5, 7, 5] .nil .nil), 1⟩ :
                bs_searcher).root_.entries.erase (bitsOf ⟨1, 1, [1]⟩, 5))) :=
  ⟨rfl, C3_remove_semantics
    ⟨treenode.mk [] .nil (treenode.mk [5, 7, 5] .nil .nil), 1⟩ 5 ⟨1, 1, [1]⟩ rfl⟩

/-- **C9**: whenever `bs_searcher::remove` returns `false`, the index is
left completely unchanged — the returned state equals the input state
exactly (no node created, none detached, no value list modified). -/
theorem C9_remove_false_frame (s : bs_searcher) (v : Nat) (bs : binary_set)
    (s' : bs_searcher) (h : s.remove v bs = (s', .ok false)) : s' = s := by
  unfold bs_searcher.remove at h
  by_cases hc : s.capacity_ ≠ bs.capacity_
  · rw [if_pos hc] at h
    have h2 : (Except.error errSearcherCapacity : Except bs_error Bool)
        = Except.ok false := congrArg Prod.snd h
    exact absurd h2 (by simp)
  · rw [if_neg hc] at h
    cases hr : removeAux s.root_ (bitsOf bs) v with
    | none =>
      rw [hr] at h
      have h2 : (s, (Except.ok false : Except bs_error Bool))
          = (s', Except.ok false) := h
      exact (congrArg Prod.fst h2).symm
    | some c0 =>
      rw [hr] at h
      have h2 : (Except.ok true : Except bs_error Bool) = Except.ok false :=
        congrArg Prod.snd h
      exact absurd h2 (by simp)

/-- Witness for C9: removing absent value 5 from a fresh capacity-1 index
returns `false` and the unchanged state. -/
theorem C9_remove_false_frame_witness :
    (bs_searcher.init 1).remove 5 ⟨1, 0, [0]⟩ = (bs_searcher.init 1, Except.ok false)
    ∧ bs_searcher.init 1 = bs_searcher.init 1 :=
  ⟨rfl, C9_remove_false_frame (bs_searcher.init 1) 5 ⟨1, 0, [0]⟩
    (bs_searcher.init 1) rfl⟩

/-- **C10**: a `bs_searcher` of capacity 0 works with capacity-0
`binary_set`s (the bit path is empty, so everything lives at the root):
`add` appends the value to the root's value list, `find_subsets` returns
all values currently stored (the root's list), and `remove` succeeds,
reporting whether the value was present and removing it from the root's
list with the first-match swap-with-last removal; none of the operations
fails. -/
theorem C10_capacity_zero (s : bs_searcher) (v : Nat) (bs : binary_set)
    (hs : s.capacity_ = 0) (hb : bs.capacity_ = 0) :
    s.add v bs = ({ s with
        root_ := .mk (s.root_.values ++ [v]) s.root_.left s.root_.right }, .ok ())
    ∧ s.find_subsets bs = .ok s.root_.values
    ∧ ∃ s' found, s.remove v bs = (s', .ok found)
        ∧ (found = true ↔ v ∈ s.root_.values)
        ∧ (found = true → s'.root_.values = swap_pop s.root_.values v) := by
  have hnc : ¬(s.capacity_ ≠ bs.capacity_) := by omega
  have hbits : bitsOf bs = [] := by
    unfold bitsOf; rw [hb]; rfl
  refine ⟨?_, ?_, ?_⟩
  · unfold bs_searcher.add
    rw [if_neg hnc, hbits]
    rfl
  · unfold bs_searcher.find_subsets
    rw [if_neg hnc, hbits]
    show Except.ok (s.root_.values ++ []) = _
    rw [List.append_nil]
  · cases ht : s.root_ with
    | nil =>
      refine ⟨s, false, ?_, ?_, ?_⟩
      · unfold bs_searcher.remove
        rw [if_neg hnc, hbits, ht]
        rfl
      · show false = true ↔ v ∈ ([] : List Nat)
        simp
      · intro hft; exact absurd hft (by simp)
    | mk vs l r =>
      cases hr : removeAux (treenode.mk vs l r) [] v with
      | none =>
        have hnm : v ∉ vs := by
          intro hv
          simp [removeAux, hv] at hr
        refine ⟨s, false, ?_, ?_, ?_⟩
        · unfold bs_searcher.remove
          rw [if_neg hnc, hbits, ht, hr]
        · show false = true ↔ v ∈ vs
          simp [hnm]
        · intro hft; exact absurd hft (by simp)
      | some c0 =>
        have hvv : v ∈ vs := by
          by_contra hnm
          simp [removeAux, hnm] at hr
        have hlf := removeAux_some_leaf [] (treenode.mk vs l r) v c0 hr
        refine ⟨{ s with root_ := if c0.isNil then treenode.new else c0 }, true,
          ?_, ?_, ?_⟩
        · unfold bs_searcher.remove
          rw [if_neg hnc, hbits, ht, hr]
        · show true = true ↔ v ∈ vs
          simp [hvv]
        · intro _
          show (if c0.isNil then treenode.new else c0).values = swap_pop vs v
          cases c0 with
          | nil => exact hlf.2
          | mk vs2 l2 r2 => exact hlf.2

/-- Witness for C10 at a root already holding value 3, adding and removing
value 3 with the default capacity-0 set. -/
theorem C10_capacity_zero_witness :
    (⟨treenode.mk [3] .nil .nil, 0⟩ : bs_searcher).capacity_ = 0
    ∧ bsDefault.capacity_ = 0
    ∧ ((⟨treenode.mk [3] .nil .nil, 0⟩ : bs_searcher).add 3 bsDefault
        = ({ (⟨treenode.mk [3] .nil .nil, 0⟩ : bs_searcher) with
            root_ := .mk ((⟨treenode.mk [3] .nil .nil, 0⟩ :
                bs_searcher).root_.values ++ [3])
              (⟨treenode.mk [3] .nil .nil, 0⟩ : bs_searcher).root_.left
              (⟨treenode.mk [3] .nil .nil, 0⟩ : bs_searcher).root_.right }, .ok ())
    ∧ (⟨treenode.mk [3] .nil .nil, 0⟩ : bs_searcher).find_subsets bsDefault
        = .ok (⟨treenode.mk [3] .nil .nil, 0⟩ : bs_searcher).root_.values
    ∧ ∃ s' found, (⟨treenode.mk [3] .nil .nil, 0⟩ : bs_searcher).remove 3 bsDefault
          = (s', .ok found)
        ∧ (found = true ↔ 3 ∈ (⟨treenode.mk [3] .nil .nil, 0⟩ :
            bs_searcher).root_.values)
        ∧ (found = true → s'.root_.values
            = swap_pop (⟨treenode.mk [3] .nil .nil, 0⟩ :
                bs_searcher).root_.values 3)) :=
  ⟨rfl, rfl, C10_capacity_zero ⟨treenode.mk [3] .nil .nil, 0⟩ 3 bsDefault rfl rfl⟩
